import Mathlib

/-!
# Constant propagation over LLVM IR (`myConstantPropagation`)

A shallow embedding of `ch4/simple_cst_propagation/your_turn/populate_function.cpp`.

* `llvm.APInt` embeds the part of the host library's fixed-width integer that the
  pass calls (`+`, `-`, `*`, `sdiv`, `shl`, `|`).  A failed library assertion
  ("Divide by zero?", "Bit widths must be the same") is an explicit `Fault`.
* A `Function` is a list of basic blocks, a basic block a list of instructions, an
  instruction carries its identity (the `Instruction *`), its opcode and its operands.
* `myConstantPropagation` is the pass: the traversal with its in-place
  `replaceAllUsesWith`, the `ToRemove` worklist and the final erase loop.
-/

namespace llvm

/-- A failed assertion of the host integer library: the call does not return. -/
inductive Fault where
  | DivideByZero
  | BitWidthMismatch
deriving DecidableEq, Repr

/-- Host class `APInt`: a bit pattern `VAL` of `BitWidth` bits (unsigned reading). -/
structure APInt where
  BitWidth : Nat
  VAL : Nat
deriving DecidableEq, Repr

namespace APInt

/-- The value read as a two's-complement signed integer (`getSExtValue`). -/
def toSigned (a : APInt) : Int :=
  if 2 ^ (a.BitWidth - 1) ≤ a.VAL then (a.VAL : Int) - 2 ^ a.BitWidth else (a.VAL : Int)

/-- Host `isNegative`: the sign bit, bit `BitWidth - 1`, is set. -/
def isNegative (a : APInt) : Bool := decide (2 ^ (a.BitWidth - 1) ≤ a.VAL)

/-- Host `operator+`: asserts equal widths, adds, clears the unused high bits. -/
def add (a b : APInt) : Except Fault APInt :=
  if a.BitWidth ≠ b.BitWidth then .error .BitWidthMismatch
  else .ok ⟨a.BitWidth, (a.VAL + b.VAL) % 2 ^ a.BitWidth⟩

/-- Host `operator-`: asserts equal widths, subtracts with wraparound, clears the
unused high bits. -/
def sub (a b : APInt) : Except Fault APInt :=
  if a.BitWidth ≠ b.BitWidth then .error .BitWidthMismatch
  else .ok ⟨a.BitWidth, (a.VAL + (2 ^ a.BitWidth - b.VAL)) % 2 ^ a.BitWidth⟩

/-- Host `operator*`: asserts equal widths, multiplies, clears the unused high bits. -/
def mul (a b : APInt) : Except Fault APInt :=
  if a.BitWidth ≠ b.BitWidth then .error .BitWidthMismatch
  else .ok ⟨a.BitWidth, (a.VAL * b.VAL) % 2 ^ a.BitWidth⟩

/-- Host `operator|`: asserts equal widths, ors the two bit patterns. -/
def or (a b : APInt) : Except Fault APInt :=
  if a.BitWidth ≠ b.BitWidth then .error .BitWidthMismatch
  else .ok ⟨a.BitWidth, a.VAL ||| b.VAL⟩

/-- Host unary `operator-`: flip all bits, then increment (two's complement). -/
def neg (a : APInt) : APInt :=
  ⟨a.BitWidth, ((2 ^ a.BitWidth - 1 - a.VAL) + 1) % 2 ^ a.BitWidth⟩

/-- Host `udiv`: asserts equal widths and a non-zero divisor, then divides. -/
def udiv (a b : APInt) : Except Fault APInt :=
  if a.BitWidth ≠ b.BitWidth then .error .BitWidthMismatch
  else if b.VAL = 0 then .error .DivideByZero
  else .ok ⟨a.BitWidth, a.VAL / b.VAL⟩

/-- Host `sdiv`: sign-magnitude reduction to `udiv`. -/
def sdiv (a b : APInt) : Except Fault APInt :=
  if a.isNegative then
    if b.isNegative then (neg a).udiv (neg b)
    else ((neg a).udiv b).map neg
  else if b.isNegative then (a.udiv (neg b)).map neg
  else a.udiv b

/-- Host `getLimitedValue(Limit)`: the value, saturated at `Limit`. -/
def getLimitedValue (a : APInt) (Limit : Nat) : Nat :=
  if Limit < a.VAL then Limit else a.VAL

/-- Host `shl(const APInt &)`: the shift amount is limited to the width; a shift by
the full width gives zero, otherwise shift and clear the unused high bits. -/
def shl (a ShiftAmt : APInt) : APInt :=
  let amt := ShiftAmt.getLimitedValue a.BitWidth
  if amt = a.BitWidth then ⟨a.BitWidth, 0⟩
  else ⟨a.BitWidth, (a.VAL <<< amt) % 2 ^ a.BitWidth⟩

end APInt

/-- Instruction opcodes: the eighteen binary operators and the other instructions. -/
inductive Opcode where
  | Add | FAdd | Sub | FSub | Mul | FMul | UDiv | SDiv | FDiv
  | URem | SRem | FRem | Shl | LShr | AShr | And | Or | Xor
  | Ret | Br | Alloca | Load | Store | GetElementPtr | ICmp | PHI | Select | Call
  | Trunc | ZExt | SExt
deriving DecidableEq, Repr

/-- What `isa<BinaryOperator>` tests: the opcode is one of the binary operators. -/
def Opcode.isBinaryOp : Opcode → Bool
  | .Add | .FAdd | .Sub | .FSub | .Mul | .FMul | .UDiv | .SDiv | .FDiv
  | .URem | .SRem | .FRem | .Shl | .LShr | .AShr | .And | .Or | .Xor => true
  | _ => false

/-- An operand: an integer constant, the result of an instruction (named by the
instruction's identity), a function argument, or any other value. -/
inductive Value where
  | ConstantInt (V : APInt)
  | Inst (id : Nat)
  | Argument (n : Nat)
  | Other (n : Nat)
deriving DecidableEq, Repr

/-- An instruction: its identity (the `Instruction *`), opcode and operand list. -/
structure Instruction where
  id : Nat
  opcode : Opcode
  operands : List Value
deriving DecidableEq, Repr

abbrev BasicBlock := List Instruction

abbrev Function := List BasicBlock

/-- Accessor `Inst.getOperand(i)`. -/
def Instruction.getOperand (I : Instruction) (i : Nat) : Option Value := I.operands[i]?

/-- Cast `dyn_cast<ConstantInt>`: the integer constant, if the operand is one. -/
def dyn_cast_ConstantInt : Option Value → Option APInt
  | some (.ConstantInt V) => some V
  | _ => none

/-- One operand slot under `replaceAllUsesWith`: a use of `old` becomes `new`. -/
def Value.replaceUsesOfWith (v : Value) (old : Nat) (new : Value) : Value :=
  if v = .Inst old then new else v

/-- All operand slots of one instruction under `replaceAllUsesWith`. -/
def Instruction.replaceUsesOfWith (I : Instruction) (old : Nat) (new : Value) : Instruction :=
  { I with operands := I.operands.map (fun v => v.replaceUsesOfWith old new) }

/-- Host `Value::replaceAllUsesWith` for the instruction `old`: every operand slot of
every instruction of the function that uses `old` is redirected to `new`. -/
def Function.replaceAllUsesWith (Foo : Function) (old : Nat) (new : Value) : Function :=
  Foo.map (fun BB => BB.map (fun I => I.replaceUsesOfWith old new))

/-- Host `I->eraseFromParent()`: unlink the instruction `I` from its basic block. -/
def Function.eraseFromParent (Foo : Function) (I : Nat) : Function :=
  Foo.map (fun BB => BB.filter (fun J => decide (J.id ≠ I)))

/-- The instruction at slot `ii` of block `bi`, as the iterators read it. -/
def Function.getInst (Foo : Function) (p : Nat × Nat) : Option Instruction :=
  match Foo[p.1]? with
  | none => none
  | some BB => BB[p.2]?

/-- The slots of the blocks `Foo`, numbered from block `bi`, in traversal order. -/
def positionsFrom (bi : Nat) : Function → List (Nat × Nat)
  | [] => []
  | BB :: rest => (List.range BB.length).map (fun ii => (bi, ii)) ++ positionsFrom (bi + 1) rest

/-- The slots visited by `for (BasicBlock &BB : Foo) for (Instruction &Inst : BB)`:
block order, then intra-block order. -/
def Function.positions (Foo : Function) : List (Nat × Nat) := positionsFrom 0 Foo

/-- The local variables of `myConstantPropagation` together with the function. -/
structure State where
  Foo : Function
  ToRemove : List Nat
  changed : Bool
deriving DecidableEq, Repr

/-- The `switch (Inst.getOpcode())`: `none` is the `default: continue`. -/
def foldOpcode : Opcode → APInt → APInt → Option (Except Fault APInt)
  | .Add, LHSValue, RHSValue => some (LHSValue.add RHSValue)
  | .Sub, LHSValue, RHSValue => some (LHSValue.sub RHSValue)
  | .Mul, LHSValue, RHSValue => some (LHSValue.mul RHSValue)
  | .SDiv, LHSValue, RHSValue => some (LHSValue.sdiv RHSValue)
  | .Shl, LHSValue, RHSValue => some (.ok (LHSValue.shl RHSValue))
  | .Or, LHSValue, RHSValue => some (LHSValue.or RHSValue)
  | _, _, _ => none

/-- The body of the inner loop for the instruction `Inst` (read from the current
state of the function). -/
def visitInst (st : State) (Inst : Instruction) : Except Fault State :=
  if Inst.opcode.isBinaryOp then
    match dyn_cast_ConstantInt (Inst.getOperand 0), dyn_cast_ConstantInt (Inst.getOperand 1) with
    | some LHS, some RHS =>
      match foldOpcode Inst.opcode LHS RHS with
      | none => .ok st
      | some (.error e) => .error e
      | some (.ok ResultValue) =>
        .ok { Foo := st.Foo.replaceAllUsesWith Inst.id (.ConstantInt ResultValue)
              ToRemove := st.ToRemove ++ [Inst.id]
              changed := true }
    | _, _ => .ok st
  else .ok st

/-- One iteration: read the instruction at slot `p` and run the loop body on it. -/
def visit (st : State) (p : Nat × Nat) : Except Fault State :=
  match st.Foo.getInst p with
  | none => .ok st
  | some Inst => visitInst st Inst

/-- The two nested loops over the slots `ps`; a fault ends the call. -/
def traverse (st : State) : List (Nat × Nat) → Except Fault State
  | [] => .ok st
  | p :: ps =>
    match visit st p with
    | .error e => .error e
    | .ok st1 => traverse st1 ps

/-- The final loop `for (Instruction *I : ToRemove) I->eraseFromParent();`. -/
def eraseAll (Foo : Function) (ToRemove : List Nat) : Function :=
  ToRemove.foldl Function.eraseFromParent Foo

/-- The pass: the returned flag `changed` and the function after the call, or the
fault that ended the call. -/
def myConstantPropagation (Foo : Function) : Except Fault (Bool × Function) :=
  match traverse { Foo := Foo, ToRemove := [], changed := false } Foo.positions with
  | .error e => .error e
  | .ok st => .ok (st.changed, eraseAll st.Foo st.ToRemove)

/-- An `i32` constant. -/
def i32 (v : Nat) : Value := .ConstantInt ⟨32, v⟩

/-! ## Specification vocabulary -/

/-- The identities of the instructions of a function, in traversal order. -/
def Function.ids (Foo : Function) : List Nat := Foo.flatten.map (fun I => I.id)

/-- The six opcodes that the `switch` folds. -/
def Opcode.isSupported : Opcode → Bool
  | .Add | .Sub | .Mul | .SDiv | .Shl | .Or => true
  | _ => false

/-- What the loop body computes for `Inst` before it touches the function: `none`
when the instruction is skipped, otherwise the outcome of the host arithmetic. -/
def foldCandidate (Inst : Instruction) : Option (Except Fault APInt) :=
  if Inst.opcode.isBinaryOp then
    match dyn_cast_ConstantInt (Inst.getOperand 0), dyn_cast_ConstantInt (Inst.getOperand 1) with
    | some LHS, some RHS => foldOpcode Inst.opcode LHS RHS
    | _, _ => none
  else none

/-- An assignment of constants to instruction identities: the accumulated effect of
the `replaceAllUsesWith` calls made so far. -/
abbrev Subst := Nat → Option APInt

/-- An operand slot after the uses of the instructions in `σ` were redirected. -/
def Value.subst (σ : Subst) : Value → Value
  | .Inst x =>
    match σ x with
    | some c => .ConstantInt c
    | none => .Inst x
  | v => v

/-- An instruction after the uses of the instructions in `σ` were redirected. -/
def Instruction.subst (σ : Subst) (I : Instruction) : Instruction :=
  { I with operands := I.operands.map (Value.subst σ) }

/-- A function after the uses of the instructions in `σ` were redirected. -/
def Function.subst (σ : Subst) (Foo : Function) : Function :=
  Foo.map (fun BB => BB.map (Instruction.subst σ))

/-- The assignment `σ` after one more `replaceAllUsesWith` of `x` by the constant `c`:
uses redirected earlier are constants already and stay as they are. -/
def Subst.extend (σ : Subst) (x : Nat) (c : APInt) : Subst :=
  fun y =>
    match σ y with
    | some d => some d
    | none => if y = x then some c else none

/-- The traversal state with the function kept as "input function plus `σ`". -/
structure Folding where
  σ : Subst
  ToRemove : List Nat
  changed : Bool

/-- The concrete state that a `Folding` stands for, over the input function `f`. -/
def Folding.toState (f : Function) (a : Folding) : State :=
  { Foo := f.subst a.σ, ToRemove := a.ToRemove, changed := a.changed }

/-- The loop body on the input instruction `I`, read through the current `σ`. -/
def Folding.step (a : Folding) (I : Instruction) : Except Fault Folding :=
  match foldCandidate (I.subst a.σ) with
  | none => .ok a
  | some (.error e) => .error e
  | some (.ok c) =>
    .ok { σ := a.σ.extend I.id c, ToRemove := a.ToRemove ++ [I.id], changed := true }

/-- The traversal over the input instructions `L` in order. -/
def Folding.run (a : Folding) : List Instruction → Except Fault Folding
  | [] => .ok a
  | I :: L =>
    match a.step I with
    | .error e => .error e
    | .ok a1 => Folding.run a1 L

/-- The state in which the traversal starts. -/
def Folding.init : Folding := { σ := fun _ => none, ToRemove := [], changed := false }

/-- The function the call leaves behind, from the final traversal state `a` over the
input function `f`: the recorded instructions are unlinked, the others keep their
block, order and opcode, and their operands are read through `a.σ`. -/
def Folding.result (f : Function) (a : Folding) : Function :=
  f.map (fun BB => (BB.filter (fun J => decide (J.id ∉ a.ToRemove))).map (Instruction.subst a.σ))

/-- The bookkeeping invariant of the traversal: the redirected identities are the
recorded ones, and the flag is set exactly when something was recorded. -/
structure Folding.Inv (a : Folding) : Prop where
  dom : ∀ x, a.σ x ≠ none ↔ x ∈ a.ToRemove
  chg : a.changed = true ↔ a.ToRemove ≠ []

/-! ## Example functions -/

/-- The function `%1 = add i32 5, 3; ret i32 %1`. -/
def exAddRet : Function := [[⟨1, .Add, [i32 5, i32 3]⟩, ⟨2, .Ret, [.Inst 1]⟩]]

/-- The function `ret i32 8`. -/
def exRet8 : Function := [[⟨2, .Ret, [i32 8]⟩]]

/-- The function `%1 = add i32 2, 3; %2 = mul i32 %1, 4; ret i32 %2`. -/
def exChain : Function :=
  [[⟨1, .Add, [i32 2, i32 3]⟩, ⟨2, .Mul, [.Inst 1, i32 4]⟩, ⟨3, .Ret, [.Inst 2]⟩]]

/-- The function `ret i32 20`. -/
def exRet20 : Function := [[⟨3, .Ret, [i32 20]⟩]]

/-- The function `%1 = sdiv i32 10, 0; ret i32 %1`. -/
def exSDivZero : Function := [[⟨1, .SDiv, [i32 10, i32 0]⟩, ⟨2, .Ret, [.Inst 1]⟩]]

/-- The function `%1 = add i32 1, 2; %2 = sdiv i32 10, 0; ret i32 %2`. -/
def exAddSDivZero : Function :=
  [[⟨1, .Add, [i32 1, i32 2]⟩, ⟨2, .SDiv, [i32 10, i32 0]⟩, ⟨3, .Ret, [.Inst 2]⟩]]

/-- The function `%1 = add i32 %arg0, 3; %2 = udiv i32 4, 2; ret i32 %1`. -/
def exNoCandidate : Function :=
  [[⟨1, .Add, [.Argument 0, i32 3]⟩, ⟨2, .UDiv, [i32 4, i32 2]⟩, ⟨3, .Ret, [.Inst 1]⟩]]

/-- The function `%1 = shl i32 1, 3; %2 = or i32 %1, 1; ret i32 %2`. -/
def exShlOr : Function :=
  [[⟨1, .Shl, [i32 1, i32 3]⟩, ⟨2, .Or, [.Inst 1, i32 1]⟩, ⟨3, .Ret, [.Inst 2]⟩]]

/-- The function `ret i32 9`. -/
def exRet9 : Function := [[⟨3, .Ret, [i32 9]⟩]]

/-- Two blocks: `%1 = xor i32 %arg0, 1; %2 = shl i32 1, 40; br` and
`%3 = sub i32 0, 1; %4 = add i32 %1, %3; ret i32 %4`. -/
def exTwoBlocks : Function :=
  [[⟨1, .Xor, [.Argument 0, i32 1]⟩, ⟨2, .Shl, [i32 1, i32 40]⟩, ⟨5, .Br, [.Other 0]⟩],
   [⟨3, .Sub, [i32 0, i32 1]⟩, ⟨4, .Add, [.Inst 1, .Inst 3]⟩, ⟨6, .Ret, [.Inst 4]⟩]]

/-- The function `exTwoBlocks` after the pass. -/
def exTwoBlocksFolded : Function :=
  [[⟨1, .Xor, [.Argument 0, i32 1]⟩, ⟨5, .Br, [.Other 0]⟩],
   [⟨4, .Add, [.Inst 1, i32 4294967295]⟩, ⟨6, .Ret, [.Inst 4]⟩]]

/-- Three blocks laid out with the user before the definition: `br`, then
`%2 = mul i32 %1, 4; ret i32 %2`, then `%1 = add i32 2, 3; br`. -/
def exUseBeforeDef : Function :=
  [[⟨5, .Br, [.Other 1]⟩],
   [⟨2, .Mul, [.Inst 1, i32 4]⟩, ⟨3, .Ret, [.Inst 2]⟩],
   [⟨1, .Add, [i32 2, i32 3]⟩, ⟨4, .Br, [.Other 0]⟩]]

/-- The function `exUseBeforeDef` after one call of the pass. -/
def exUseBeforeDef1 : Function :=
  [[⟨5, .Br, [.Other 1]⟩],
   [⟨2, .Mul, [i32 5, i32 4]⟩, ⟨3, .Ret, [.Inst 2]⟩],
   [⟨4, .Br, [.Other 0]⟩]]

/-- The function `exUseBeforeDef` after two calls of the pass. -/
def exUseBeforeDef2 : Function :=
  [[⟨5, .Br, [.Other 1]⟩], [⟨3, .Ret, [i32 20]⟩], [⟨4, .Br, [.Other 0]⟩]]

/-! ## Layout of definitions and uses -/

/-- Whether the operand `v`, when it is an instruction result, names one of `seen`. -/
def Value.definedIn (seen : List Nat) : Value → Bool
  | .Inst x => decide (x ∈ seen)
  | _ => true

/-- Whether, along the instructions `L` visited after those named in `seen`, every
operand that is an instruction result names an instruction visited before its user. -/
def defBeforeUseFrom (seen : List Nat) : List Instruction → Bool
  | [] => true
  | I :: L =>
    I.operands.all (Value.definedIn seen) && defBeforeUseFrom (seen ++ [I.id]) L

/-- The def-before-use layout: in traversal order (block order, then intra-block
order) every operand that is an instruction result is defined before its user. -/
def Function.defBeforeUse (Foo : Function) : Bool := defBeforeUseFrom [] Foo.flatten

/-! ## The traversal as an accumulated substitution -/

theorem Value.subst_none_val (v : Value) : Value.subst (fun _ => none) v = v := by
  cases v <;> rfl

theorem Function.subst_none_fn (f : Function) : f.subst (fun _ => none) = f := by
  have h : ∀ I : Instruction, I.subst (fun _ => none) = I := by
    intro I
    cases I with
    | mk i o ops =>
      simp only [Instruction.subst]
      congr 1
      conv_rhs => rw [← List.map_id ops]
      exact List.map_congr_left (fun v _ => Value.subst_none_val v)
  simp only [Function.subst]
  conv_rhs => rw [← List.map_id f]
  apply List.map_congr_left
  intro BB _
  conv_rhs => rw [← List.map_id BB]
  exact List.map_congr_left (fun I _ => h I)

theorem Value.subst_extend_val (σ : Subst) (x : Nat) (c : APInt) (v : Value) :
    (Value.subst σ v).replaceUsesOfWith x (.ConstantInt c) = Value.subst (σ.extend x c) v := by
  cases v with
  | Inst y =>
    simp only [Value.subst, Subst.extend]
    cases h : σ y with
    | some d => simp [Value.replaceUsesOfWith]
    | none =>
      by_cases hy : y = x
      · simp [Value.replaceUsesOfWith, hy]
      · simp [Value.replaceUsesOfWith, hy]
  | ConstantInt d => simp [Value.subst, Value.replaceUsesOfWith]
  | Argument n => simp [Value.subst, Value.replaceUsesOfWith]
  | Other n => simp [Value.subst, Value.replaceUsesOfWith]

theorem Function.subst_extend_fn (f : Function) (σ : Subst) (x : Nat) (c : APInt) :
    (f.subst σ).replaceAllUsesWith x (.ConstantInt c) = f.subst (σ.extend x c) := by
  simp only [Function.subst, Function.replaceAllUsesWith, List.map_map]
  apply List.map_congr_left
  intro BB _
  simp only [Function.comp, List.map_map]
  apply List.map_congr_left
  intro I _
  simp only [Function.comp, Instruction.subst, Instruction.replaceUsesOfWith, List.map_map]
  congr 1
  apply List.map_congr_left
  intro v _
  exact Value.subst_extend_val σ x c v

theorem Function.getInst_subst (f : Function) (σ : Subst) (p : Nat × Nat) :
    (f.subst σ).getInst p = (f.getInst p).map (Instruction.subst σ) := by
  simp only [Function.getInst, Function.subst, List.getElem?_map]
  cases f[p.1]? with
  | none => rfl
  | some BB => simp [List.getElem?_map]

theorem visitInst_eq (st : State) (Inst : Instruction) :
    visitInst st Inst =
      match foldCandidate Inst with
      | none => .ok st
      | some (.error e) => .error e
      | some (.ok ResultValue) =>
        .ok { Foo := st.Foo.replaceAllUsesWith Inst.id (.ConstantInt ResultValue)
              ToRemove := st.ToRemove ++ [Inst.id]
              changed := true } := by
  unfold visitInst foldCandidate
  by_cases hb : Inst.opcode.isBinaryOp = true
  · simp only [hb, if_true]
    cases dyn_cast_ConstantInt (Inst.getOperand 0) with
    | none => rfl
    | some LHS =>
      cases dyn_cast_ConstantInt (Inst.getOperand 1) with
      | none => rfl
      | some RHS => rfl
  · simp [hb]

theorem range_map_getElem? {α : Type} (l : List α) :
    (List.range l.length).map (fun i => l[i]?) = l.map some := by
  apply List.ext_getElem?
  intro n
  by_cases hn : n < l.length
  · simp [List.getElem?_map, List.getElem?_range hn, List.getElem?_eq_getElem hn]
  · have h1 : (List.range l.length)[n]? = none := by
      apply List.getElem?_eq_none; simp; omega
    have h2 : l[n]? = none := List.getElem?_eq_none (by omega)
    simp [List.getElem?_map, h1, h2]

theorem positionsFrom_map (pre f : Function) :
    (positionsFrom pre.length f).map (pre ++ f).getInst = f.flatten.map some := by
  induction f generalizing pre with
  | nil => rfl
  | cons BB rest ih =>
    have h := ih (pre ++ [BB])
    simp only [List.length_append, List.length_singleton, List.append_assoc,
      List.singleton_append] at h
    simp only [positionsFrom, List.map_append, List.map_map, List.flatten_cons, h]
    congr 1
    rw [← range_map_getElem? BB]
    apply List.map_congr_left
    intro ii _
    have hg : (pre ++ BB :: rest)[pre.length]? = some BB := by
      rw [List.getElem?_append_right (Nat.le_refl _)]
      simp
    simp only [Function.getInst, Function.comp, hg]

theorem positions_map (f : Function) :
    f.positions.map f.getInst = f.flatten.map some := by
  have h := positionsFrom_map [] f
  simpa [Function.positions] using h

theorem Instruction.subst_id (σ : Subst) (I : Instruction) : (I.subst σ).id = I.id := rfl

theorem Instruction.subst_opcode (σ : Subst) (I : Instruction) :
    (I.subst σ).opcode = I.opcode := rfl

theorem visit_toState (f : Function) (a : Folding) (p : Nat × Nat) (I : Instruction)
    (h : f.getInst p = some I) :
    visit (a.toState f) p =
      match a.step I with
      | .error e => .error e
      | .ok a1 => .ok (a1.toState f) := by
  have hg : (a.toState f).Foo.getInst p = some (I.subst a.σ) := by
    simp [Folding.toState, Function.getInst_subst, h]
  simp only [visit, hg, visitInst_eq, Folding.step, Instruction.subst_id]
  cases foldCandidate (I.subst a.σ) with
  | none => rfl
  | some r =>
    cases r with
    | error e => rfl
    | ok c =>
      simp only [Folding.toState, Function.subst_extend_fn]

theorem traverse_toState (f : Function) (ps : List (Nat × Nat)) (L : List Instruction)
    (a : Folding) (h : ps.map f.getInst = L.map some) :
    traverse (a.toState f) ps =
      match a.run L with
      | .error e => .error e
      | .ok a1 => .ok (a1.toState f) := by
  induction ps generalizing L a with
  | nil =>
    cases L with
    | nil => rfl
    | cons I L => simp at h
  | cons p ps ih =>
    cases L with
    | nil => simp at h
    | cons I L =>
      simp only [List.map_cons, List.cons.injEq] at h
      simp only [traverse, Folding.run, visit_toState f a p I h.1]
      cases a.step I with
      | error e => rfl
      | ok a1 => exact ih L a1 h.2

theorem eraseAll_eq (F : Function) (R : List Nat) :
    eraseAll F R = F.map (fun BB => BB.filter (fun J => decide (J.id ∉ R))) := by
  induction R generalizing F with
  | nil =>
    simp only [eraseAll, List.foldl_nil, List.not_mem_nil, not_false_eq_true, decide_True,
      List.filter_true, List.map_id_fun, id_eq]
    exact (List.map_id F).symm
  | cons x R ih =>
    have h := ih (F.eraseFromParent x)
    simp only [eraseAll, List.foldl_cons] at h ⊢
    rw [h]
    simp only [Function.eraseFromParent, List.map_map]
    apply List.map_congr_left
    intro BB _
    simp only [Function.comp, List.filter_filter]
    apply List.filter_congr
    intro J _
    by_cases h1 : J.id = x <;> by_cases h2 : J.id ∈ R <;> simp [h1, h2]

theorem traverse_init (f : Function) :
    traverse { Foo := f, ToRemove := [], changed := false } f.positions =
      match Folding.init.run f.flatten with
      | .error e => .error e
      | .ok a => .ok (a.toState f) := by
  have h := traverse_toState f f.positions f.flatten Folding.init (positions_map f)
  simpa [Folding.toState, Folding.init, Function.subst_none_fn] using h

theorem myConstantPropagation_eq (f : Function) :
    myConstantPropagation f =
      match Folding.init.run f.flatten with
      | .error e => .error e
      | .ok a => .ok (a.changed, a.result f) := by
  simp only [myConstantPropagation, traverse_init]
  cases Folding.init.run f.flatten with
  | error e => rfl
  | ok a =>
    simp only [Folding.toState, eraseAll_eq, Folding.result, Function.subst, List.map_map]
    congr 2
    apply List.map_congr_left
    intro BB _
    simp only [Function.comp, List.filter_map]
    rfl

/-! ## Facts about the traversal -/

theorem Folding.step_ok (a a1 : Folding) (I : Instruction) (h : a.step I = .ok a1) :
    (foldCandidate (I.subst a.σ) = none ∧ a1 = a) ∨
    (∃ c, foldCandidate (I.subst a.σ) = some (.ok c) ∧
      a1 = { σ := a.σ.extend I.id c, ToRemove := a.ToRemove ++ [I.id], changed := true }) := by
  unfold Folding.step at h
  cases hc : foldCandidate (I.subst a.σ) with
  | none =>
    rw [hc] at h
    left
    simp only [Except.ok.injEq] at h
    exact ⟨rfl, h.symm⟩
  | some r =>
    cases r with
    | error e => rw [hc] at h; cases h
    | ok c =>
      rw [hc] at h
      right
      simp only [Except.ok.injEq] at h
      exact ⟨c, rfl, h.symm⟩

theorem Folding.run_cons (a a2 : Folding) (I : Instruction) (L : List Instruction) :
    a.run (I :: L) = .ok a2 ↔ ∃ a1, a.step I = .ok a1 ∧ a1.run L = .ok a2 := by
  simp only [Folding.run]
  cases a.step I with
  | error e => simp
  | ok a1 => simp

theorem Folding.run_append (a a2 : Folding) (L1 L2 : List Instruction) :
    a.run (L1 ++ L2) = .ok a2 ↔ ∃ a1, a.run L1 = .ok a1 ∧ a1.run L2 = .ok a2 := by
  induction L1 generalizing a with
  | nil => simp [Folding.run]
  | cons I L1 ih =>
    simp only [List.cons_append, Folding.run_cons, ih]
    constructor
    · rintro ⟨a1, h1, a3, h3, h4⟩
      exact ⟨a3, ⟨a1, h1, h3⟩, h4⟩
    · rintro ⟨a3, ⟨a1, h1, h3⟩, h4⟩
      exact ⟨a1, h1, a3, h3, h4⟩

theorem Folding.init_inv : Folding.init.Inv :=
  ⟨fun x => by simp [Folding.init], by simp [Folding.init]⟩

theorem Subst.extend_ne_none (σ : Subst) (x y : Nat) (c : APInt) :
    σ.extend x c y ≠ none ↔ σ y ≠ none ∨ y = x := by
  unfold Subst.extend
  cases h : σ y with
  | some d => simp
  | none => by_cases hy : y = x <;> simp [hy]

theorem Subst.extend_mono (σ : Subst) (x y : Nat) (c d : APInt) (h : σ y = some d) :
    σ.extend x c y = some d := by
  simp [Subst.extend, h]

theorem Folding.step_inv (a a1 : Folding) (I : Instruction) (hi : a.Inv)
    (h : a.step I = .ok a1) : a1.Inv := by
  rcases Folding.step_ok a a1 I h with ⟨_, rfl⟩ | ⟨c, _, rfl⟩
  · exact hi
  · constructor
    · intro x
      simp only [Subst.extend_ne_none, List.mem_append, List.mem_singleton, hi.dom x]
    · simp

theorem Folding.run_inv (a a1 : Folding) (L : List Instruction) (hi : a.Inv)
    (h : a.run L = .ok a1) : a1.Inv := by
  induction L generalizing a with
  | nil =>
    simp only [Folding.run, Except.ok.injEq] at h
    exact h ▸ hi
  | cons I L ih =>
    obtain ⟨a2, h2, h3⟩ := (Folding.run_cons a a1 I L).1 h
    exact ih a2 (Folding.step_inv a a2 I hi h2) h3

/-- Along the traversal the worklist only grows, by identities of visited
instructions in visiting order, and a redirected use keeps its constant. -/
theorem Folding.run_grows (a a1 : Folding) (L : List Instruction) (h : a.run L = .ok a1) :
    (∃ new, a1.ToRemove = a.ToRemove ++ new ∧ new.Sublist (L.map (fun I => I.id))) ∧
    (∀ x c, a.σ x = some c → a1.σ x = some c) := by
  induction L generalizing a with
  | nil =>
    simp only [Folding.run, Except.ok.injEq] at h
    subst h
    exact ⟨⟨[], by simp, List.Sublist.refl _⟩, fun _ _ hx => hx⟩
  | cons I L ih =>
    obtain ⟨a2, h2, h3⟩ := (Folding.run_cons a a1 I L).1 h
    obtain ⟨⟨new, hn, hs⟩, hm⟩ := ih a2 h3
    rcases Folding.step_ok a a2 I h2 with ⟨_, rfl⟩ | ⟨c, _, rfl⟩
    · exact ⟨⟨new, hn, by simpa using hs.cons I.id⟩, hm⟩
    · refine ⟨⟨I.id :: new, by simpa using hn, by simpa using hs.cons₂ I.id⟩, ?_⟩
      intro x d hx
      exact hm x d (Subst.extend_mono a.σ I.id x c d hx)

theorem Folding.result_flatten (f : Function) (a : Folding) :
    (a.result f).flatten =
      (f.flatten.filter (fun J => decide (J.id ∉ a.ToRemove))).map (Instruction.subst a.σ) := by
  induction f with
  | nil => rfl
  | cons BB rest ih =>
    simp only [Folding.result, List.map_cons, List.flatten_cons, List.filter_append,
      List.map_append] at ih ⊢
    rw [ih]

theorem Folding.mem_result_ids (f : Function) (a : Folding) (x : Nat) :
    x ∈ (a.result f).ids ↔ x ∈ f.ids ∧ x ∉ a.ToRemove := by
  simp only [Function.ids, Folding.result_flatten, List.map_map, List.mem_map, List.mem_filter,
    Function.comp, Instruction.subst_id, decide_eq_true_eq]
  constructor
  · rintro ⟨I, ⟨hI, hx⟩, rfl⟩
    exact ⟨⟨I, hI, rfl⟩, hx⟩
  · rintro ⟨⟨I, hI, rfl⟩, hx⟩
    exact ⟨I, ⟨hI, hx⟩, rfl⟩

theorem Folding.result_nil (f : Function) (a : Folding) (hi : a.Inv) (h : a.ToRemove = []) :
    a.result f = f := by
  have hσ : a.σ = fun _ => none := by
    funext x
    have := hi.dom x
    rw [h] at this
    simpa using this
  have h2 := Function.subst_none_fn f
  simp only [Folding.result, h, hσ, List.not_mem_nil, not_false_eq_true, decide_True,
    List.filter_true]
  exact h2

/-! ## The host arithmetic against the mathematical operations -/

theorem APInt.neg_val (P x : Nat) (hx : x < P) (h0 : x ≠ 0) : ((P - 1 - x) + 1) % P = P - x := by
  have : P - 1 - x + 1 = P - x := by omega
  rw [this]
  exact Nat.mod_eq_of_lt (by omega)

theorem APInt.neg_cast (P q : Nat) (hq : q < P) :
    ((((P - 1 - q) + 1) % P : Nat) : Int) = (-(q : Int)) % (P : Int) := by
  by_cases h0 : q = 0
  · subst h0
    have : P - 1 - 0 + 1 = P := by omega
    rw [this]
    simp
  · rw [APInt.neg_val P q hq h0, Int.neg_emod, Nat.cast_sub (Nat.le_of_lt hq)]
    rw [Int.emod_eq_of_lt (by omega) (by omega)]

theorem APInt.sdiv_spec (w a b : Nat) (ha : a < 2 ^ w) (hb : b < 2 ^ w) (hb0 : b ≠ 0) :
    ∃ c, APInt.sdiv ⟨w, a⟩ ⟨w, b⟩ = .ok ⟨w, c⟩ ∧
      (c : Int) = (Int.tdiv (APInt.toSigned ⟨w, a⟩) (APInt.toSigned ⟨w, b⟩)) % 2 ^ w := by
  have hw : w ≠ 0 := by
    rintro rfl
    simp at hb
    exact hb0 hb
  obtain ⟨k, rfl⟩ : ∃ k, w = k + 1 := ⟨w - 1, by omega⟩
  have hP : 2 ^ (k + 1) = 2 * 2 ^ k := by rw [pow_succ]; ring
  have hH : 0 < 2 ^ k := Nat.pow_pos (by norm_num)
  generalize hPe : 2 ^ (k + 1) = P at *
  generalize hHe : 2 ^ k = H at *
  have hPZ : ((2 : Int) ^ (k + 1)) = (P : Int) := by rw [← hPe]; push_cast; rfl
  have hHZ : ((2 : Int) ^ k) = (H : Int) := by rw [← hHe]; push_cast; rfl
  simp only [APInt.sdiv, APInt.isNegative, APInt.toSigned, Nat.add_sub_cancel, hPe, hHe, hPZ, hHZ,
    APInt.udiv, APInt.neg,
    decide_eq_true_eq, ne_eq, not_true_eq_false, if_false]
  by_cases hna : H ≤ a <;> by_cases hnb : H ≤ b
  · -- both negative
    have e1 : (P - 1 - a + 1) % P = P - a := APInt.neg_val P a ha (by omega)
    have e2 : (P - 1 - b + 1) % P = P - b := APInt.neg_val P b hb (by omega)
    have hnz : P - b ≠ 0 := by omega
    simp only [hna, hnb, if_true, e1, e2, hnz, if_false]
    refine ⟨_, rfl, ?_⟩
    have hq : (P - a) / (P - b) < P :=
      lt_of_le_of_lt (Nat.div_le_self _ _) (by omega)
    have c1 : ((a : Int) - P) = -((P - a : Nat) : Int) := by
      rw [Nat.cast_sub (Nat.le_of_lt ha)]; ring
    have c2 : ((b : Int) - P) = -((P - b : Nat) : Int) := by
      rw [Nat.cast_sub (Nat.le_of_lt hb)]; ring
    rw [c1, c2, Int.neg_tdiv, Int.tdiv_neg, neg_neg, ← Int.ofNat_tdiv]
    rw [Int.emod_eq_of_lt (by positivity) (by exact_mod_cast hq)]
  · -- dividend negative
    have e1 : (P - 1 - a + 1) % P = P - a := APInt.neg_val P a ha (by omega)
    simp only [hna, hnb, if_true, e1, hb0, if_false, Except.map, APInt.neg, hPe]
    refine ⟨_, rfl, ?_⟩
    have hq : (P - a) / b < P :=
      lt_of_le_of_lt (Nat.div_le_self _ _) (by omega)
    have c1 : ((a : Int) - P) = -((P - a : Nat) : Int) := by
      rw [Nat.cast_sub (Nat.le_of_lt ha)]; ring
    rw [c1, Int.neg_tdiv, ← Int.ofNat_tdiv]
    exact APInt.neg_cast P _ hq
  · -- divisor negative
    have e2 : (P - 1 - b + 1) % P = P - b := APInt.neg_val P b hb (by omega)
    have hnz : P - b ≠ 0 := by omega
    simp only [hna, hnb, if_true, e2, hnz, if_false, Except.map, APInt.neg, hPe]
    refine ⟨_, rfl, ?_⟩
    have hq : a / (P - b) < P :=
      lt_of_le_of_lt (Nat.div_le_self _ _) ha
    have c2 : ((b : Int) - P) = -((P - b : Nat) : Int) := by
      rw [Nat.cast_sub (Nat.le_of_lt hb)]; ring
    rw [c2, Int.tdiv_neg, ← Int.ofNat_tdiv]
    exact APInt.neg_cast P _ hq
  · simp only [hna, hnb, hb0, if_false]
    refine ⟨_, rfl, ?_⟩
    have hq : a / b < P := lt_of_le_of_lt (Nat.div_le_self _ _) ha
    rw [← Int.ofNat_tdiv]
    rw [Int.emod_eq_of_lt (by positivity) (by exact_mod_cast hq)]


theorem APInt.sub_spec (w a b : Nat) (hb : b < 2 ^ w) :
    (((a + (2 ^ w - b)) % 2 ^ w : Nat) : Int) = ((a : Int) - b) % 2 ^ w := by
  generalize hP : 2 ^ w = P at *
  have hPZ : ((2 : Int) ^ w) = (P : Int) := by rw [← hP]; push_cast; rfl
  rw [hPZ, Int.natCast_mod, Nat.cast_add, Nat.cast_sub (Nat.le_of_lt hb)]
  have : (a : Int) + ((P : Int) - b) = (a - b) + P := by ring
  rw [this, Int.add_emod_self]

theorem APInt.shl_spec (w a b : Nat) :
    APInt.shl ⟨w, a⟩ ⟨w, b⟩ = ⟨w, (a * 2 ^ b) % 2 ^ w⟩ := by
  simp only [APInt.shl, APInt.getLimitedValue]
  by_cases h : w < b
  · have hd : 2 ^ w ∣ a * 2 ^ b :=
      Dvd.dvd.mul_left (pow_dvd_pow 2 (Nat.le_of_lt h)) a
    simp [h, Nat.mod_eq_zero_of_dvd hd]
  · by_cases h2 : b = w
    · subst h2
      simp
    · simp [h, h2, Nat.shiftLeft_eq]

theorem foldCandidate_consts (Inst : Instruction) (L R : APInt)
    (h0 : Inst.getOperand 0 = some (.ConstantInt L))
    (h1 : Inst.getOperand 1 = some (.ConstantInt R)) :
    foldCandidate Inst = foldOpcode Inst.opcode L R := by
  simp only [foldCandidate, h0, h1, dyn_cast_ConstantInt]
  cases Inst.opcode <;> rfl

theorem Opcode.isSupported_iff (op : Opcode) :
    op.isSupported = true ↔
      op ∈ [Opcode.Add, Opcode.Sub, Opcode.Mul, Opcode.SDiv, Opcode.Shl, Opcode.Or] := by
  cases op <;> simp [Opcode.isSupported]

theorem foldOpcode_supported (op : Opcode) (L R : APInt) (h : op.isSupported = true) :
    foldOpcode op L R ≠ none := by
  cases op <;> simp [Opcode.isSupported] at h <;> simp [foldOpcode]

theorem foldOpcode_unsupported (op : Opcode) (L R : APInt) (h : op.isSupported = false) :
    foldOpcode op L R = none := by
  cases op <;> simp [Opcode.isSupported] at h <;> rfl

theorem Instruction.getOperand_subst (σ : Subst) (I : Instruction) (k : Nat) :
    (I.subst σ).getOperand k = (I.getOperand k).map (Value.subst σ) := by
  simp [Instruction.getOperand, Instruction.subst, List.getElem?_map]

theorem Folding.step_folds (a a1 : Folding) (I : Instruction) (L R : APInt)
    (hop : I.opcode.isSupported = true)
    (h0 : (I.subst a.σ).getOperand 0 = some (.ConstantInt L))
    (h1 : (I.subst a.σ).getOperand 1 = some (.ConstantInt R))
    (h : a.step I = .ok a1) :
    I.id ∈ a1.ToRemove ∧ ∃ c, a1.σ I.id = some c := by
  have hc := foldCandidate_consts (I.subst a.σ) L R h0 h1
  rcases Folding.step_ok a a1 I h with ⟨hn, _⟩ | ⟨c, _, rfl⟩
  · rw [hc] at hn
    exact absurd hn (foldOpcode_supported _ L R hop)
  · refine ⟨by simp, ?_⟩
    simp only [Subst.extend]
    cases a.σ I.id with
    | some d => exact ⟨d, rfl⟩
    | none => exact ⟨c, by simp⟩

theorem Folding.step_skips (a a1 : Folding) (I : Instruction)
    (hc : foldCandidate (I.subst a.σ) = none) (h : a.step I = .ok a1) : a1 = a := by
  rcases Folding.step_ok a a1 I h with ⟨_, rfl⟩ | ⟨c, hc2, _⟩
  · rfl
  · rw [hc] at hc2; cases hc2

theorem Folding.run_split (a a3 : Folding) (pre post : List Instruction) (I : Instruction)
    (h : a.run (pre ++ I :: post) = .ok a3) :
    ∃ a1 a2, a.run pre = .ok a1 ∧ a1.step I = .ok a2 ∧ a2.run post = .ok a3 := by
  obtain ⟨a1, h1, h2⟩ := (Folding.run_append a a3 pre (I :: post)).1 h
  obtain ⟨a2, h3, h4⟩ := (Folding.run_cons a1 a3 I post).1 h2
  exact ⟨a1, a2, h1, h3, h4⟩

theorem Folding.run_mem (a a1 : Folding) (L : List Instruction) (x : Nat)
    (h : a.run L = .ok a1) (hx : x ∈ a.ToRemove) : x ∈ a1.ToRemove := by
  obtain ⟨⟨new, hn, _⟩, _⟩ := Folding.run_grows a a1 L h
  rw [hn]
  exact List.mem_append_left _ hx

theorem Folding.step_mem (a a1 : Folding) (I : Instruction) (x : Nat)
    (h : a.step I = .ok a1) (hx : x ∈ a.ToRemove) : x ∈ a1.ToRemove := by
  rcases Folding.step_ok a a1 I h with ⟨_, rfl⟩ | ⟨c, _, rfl⟩
  · exact hx
  · exact List.mem_append_left _ hx

theorem myConstantPropagation_ok (f f1 : Function) (changed : Bool)
    (h : myConstantPropagation f = .ok (changed, f1)) :
    ∃ a, Folding.init.run f.flatten = .ok a ∧ a.Inv ∧ changed = a.changed ∧ f1 = a.result f := by
  rw [myConstantPropagation_eq] at h
  cases hr : Folding.init.run f.flatten with
  | error e => rw [hr] at h; cases h
  | ok a =>
    rw [hr] at h
    simp only [Except.ok.injEq, Prod.mk.injEq] at h
    exact ⟨a, rfl, Folding.run_inv _ a _ Folding.init_inv hr, h.1.symm, h.2.symm⟩

/-- A supported instruction whose two operands are constants in the input function
is recorded for removal by any call that returns. -/
theorem Folding.run_folds_const (a3 : Folding) (pre post : List Instruction) (I : Instruction)
    (L R : APInt) (h : Folding.init.run (pre ++ I :: post) = .ok a3)
    (hop : I.opcode.isSupported = true)
    (h0 : I.getOperand 0 = some (.ConstantInt L))
    (h1 : I.getOperand 1 = some (.ConstantInt R)) :
    I.id ∈ a3.ToRemove := by
  obtain ⟨a1, a2, _, h3, h4⟩ := Folding.run_split _ a3 pre post I h
  have hs := Folding.step_folds a1 a2 I L R hop
    (by simp [Instruction.getOperand_subst, h0, Value.subst])
    (by simp [Instruction.getOperand_subst, h1, Value.subst]) h3
  exact Folding.run_mem a2 a3 post I.id h4 hs.1

theorem Instruction.subst_none_inst (I : Instruction) : I.subst (fun _ => none) = I := by
  cases I with
  | mk i o ops =>
    simp only [Instruction.subst]
    congr 1
    conv_rhs => rw [← List.map_id ops]
    exact List.map_congr_left (fun v _ => Value.subst_none_val v)

theorem dyn_cast_ConstantInt_eq_some (v : Option Value) (c : APInt)
    (h : dyn_cast_ConstantInt v = some c) : v = some (.ConstantInt c) := by
  cases v with
  | none => simp [dyn_cast_ConstantInt] at h
  | some w =>
    cases w <;> simp [dyn_cast_ConstantInt] at h
    rw [h]

/-- An instruction is skipped by the loop body unless its opcode is supported and
its first two operands are integer constants. -/
theorem foldCandidate_eq_none (I : Instruction)
    (h : ¬ (I.opcode.isSupported = true ∧ (∃ a, I.getOperand 0 = some (.ConstantInt a)) ∧
      (∃ b, I.getOperand 1 = some (.ConstantInt b)))) :
    foldCandidate I = none := by
  unfold foldCandidate
  by_cases hb : I.opcode.isBinaryOp = true
  · simp only [hb, if_true]
    cases h0 : dyn_cast_ConstantInt (I.getOperand 0) with
    | none => rfl
    | some L =>
      cases h1 : dyn_cast_ConstantInt (I.getOperand 1) with
      | none => rfl
      | some R =>
        simp only
        by_cases hs : I.opcode.isSupported = true
        · exact absurd ⟨hs, ⟨L, dyn_cast_ConstantInt_eq_some _ _ h0⟩,
            ⟨R, dyn_cast_ConstantInt_eq_some _ _ h1⟩⟩ h
        · exact foldOpcode_unsupported _ L R (by simpa using hs)
  · simp [hb]

theorem Folding.run_no_candidate (L : List Instruction)
    (h : ∀ I ∈ L, ¬ (I.opcode.isSupported = true ∧
      (∃ a, I.getOperand 0 = some (.ConstantInt a)) ∧
      (∃ b, I.getOperand 1 = some (.ConstantInt b)))) :
    Folding.init.run L = .ok Folding.init := by
  induction L with
  | nil => rfl
  | cons I L ih =>
    have hs : Folding.init.step I = .ok Folding.init := by
      have hc : foldCandidate (I.subst Folding.init.σ) = none := by
        simp only [Folding.init, Instruction.subst_none_inst]
        exact foldCandidate_eq_none I (h I (List.mem_cons_self _ _))
      simp only [Folding.step, hc]
    simp only [Folding.run, hs]
    exact ih (fun J hJ => h J (List.mem_cons_of_mem _ hJ))

theorem Opcode.isBinaryOp_of_isSupported (op : Opcode) (h : op.isSupported = true) :
    op.isBinaryOp = true := by
  cases op <;> simp [Opcode.isSupported] at h <;> rfl

/-- An operand slot reads as a constant through `σ` only if it was a constant or a
use of an instruction that `σ` redirects. -/
theorem Value.subst_eq_const (σ : Subst) (v : Value) (c : APInt)
    (h : Value.subst σ v = .ConstantInt c) :
    v = .ConstantInt c ∨ ∃ x, v = .Inst x ∧ σ x = some c := by
  cases v with
  | Inst y =>
    right
    simp only [Value.subst] at h
    cases hy : σ y with
    | none => rw [hy] at h; cases h
    | some d =>
      rw [hy] at h
      simp only [Value.ConstantInt.injEq] at h
      exact ⟨y, rfl, by rw [hy, h]⟩
  | ConstantInt d => left; simpa [Value.subst] using h
  | Argument n => cases h
  | Other n => cases h

theorem Folding.run_removed_subset (a : Folding) (L : List Instruction) (x : Nat)
    (h : Folding.init.run L = .ok a) (hx : x ∈ a.ToRemove) : x ∈ L.map (fun I => I.id) := by
  obtain ⟨⟨new, hn, hs⟩, _⟩ := Folding.run_grows _ a L h
  rw [hn] at hx
  exact hs.subset (by simpa [Folding.init] using hx)

theorem APInt.neg_BitWidth (a : APInt) : a.neg.BitWidth = a.BitWidth := rfl

theorem APInt.udiv_BitWidth (a b r : APInt) (h : a.udiv b = .ok r) :
    r.BitWidth = a.BitWidth := by
  unfold APInt.udiv at h
  split at h
  · cases h
  · split at h
    · cases h
    · simp only [Except.ok.injEq] at h
      rw [← h]

theorem APInt.sdiv_BitWidth (a b r : APInt) (h : a.sdiv b = .ok r) :
    r.BitWidth = a.BitWidth := by
  unfold APInt.sdiv at h
  split at h
  · split at h
    · exact (APInt.udiv_BitWidth _ _ _ h).trans (APInt.neg_BitWidth a)
    · cases hu : a.neg.udiv b with
      | error e => rw [hu] at h; cases h
      | ok q =>
        rw [hu] at h
        simp only [Except.map, Except.ok.injEq] at h
        rw [← h, APInt.neg_BitWidth, APInt.udiv_BitWidth _ _ _ hu, APInt.neg_BitWidth]
  · split at h
    · cases hu : a.udiv b.neg with
      | error e => rw [hu] at h; cases h
      | ok q =>
        rw [hu] at h
        simp only [Except.map, Except.ok.injEq] at h
        rw [← h, APInt.neg_BitWidth, APInt.udiv_BitWidth _ _ _ hu]
    · exact APInt.udiv_BitWidth _ _ _ h

theorem APInt.add_BitWidth (a b r : APInt) (h : a.add b = .ok r) :
    r.BitWidth = a.BitWidth := by
  unfold APInt.add at h
  split at h
  · cases h
  · simp only [Except.ok.injEq] at h; rw [← h]

theorem APInt.sub_BitWidth (a b r : APInt) (h : a.sub b = .ok r) :
    r.BitWidth = a.BitWidth := by
  unfold APInt.sub at h
  split at h
  · cases h
  · simp only [Except.ok.injEq] at h; rw [← h]

theorem APInt.mul_BitWidth (a b r : APInt) (h : a.mul b = .ok r) :
    r.BitWidth = a.BitWidth := by
  unfold APInt.mul at h
  split at h
  · cases h
  · simp only [Except.ok.injEq] at h; rw [← h]

theorem APInt.or_BitWidth (a b r : APInt) (h : a.or b = .ok r) :
    r.BitWidth = a.BitWidth := by
  unfold APInt.or at h
  split at h
  · cases h
  · simp only [Except.ok.injEq] at h; rw [← h]

theorem APInt.shl_BitWidth (a b : APInt) : (a.shl b).BitWidth = a.BitWidth := by
  unfold APInt.shl
  simp only
  split <;> rfl

/-- Every result of the `switch` has the width of the left operand. -/
theorem foldOpcode_BitWidth (op : Opcode) (L R r : APInt)
    (h : foldOpcode op L R = some (.ok r)) : r.BitWidth = L.BitWidth := by
  cases op <;> simp only [foldOpcode, Option.some.injEq] at h
  case Add => exact APInt.add_BitWidth _ _ _ h
  case Sub => exact APInt.sub_BitWidth _ _ _ h
  case Mul => exact APInt.mul_BitWidth _ _ _ h
  case SDiv => exact APInt.sdiv_BitWidth _ _ _ h
  case Shl =>
    simp only [Except.ok.injEq] at h
    rw [← h]
    exact APInt.shl_BitWidth L R
  case Or => exact APInt.or_BitWidth _ _ _ h
  all_goals cases h

/-! ## Def-before-use layout -/

theorem defBeforeUseFrom_split (seen : List Nat) (pre post : List Instruction)
    (I : Instruction) (h : defBeforeUseFrom seen (pre ++ I :: post) = true) (x : Nat)
    (hx : Value.Inst x ∈ I.operands) : x ∈ seen ++ pre.map (fun J => J.id) := by
  induction pre generalizing seen with
  | nil =>
    simp only [List.nil_append, defBeforeUseFrom, Bool.and_eq_true, List.all_eq_true] at h
    have hd := h.1 _ hx
    simpa [Value.definedIn] using hd
  | cons J pre ih =>
    simp only [List.cons_append, defBeforeUseFrom, Bool.and_eq_true] at h
    have hd := ih (seen ++ [J.id]) h.2
    simpa using hd

theorem Instruction.subst_congr (σ τ : Subst) (I : Instruction)
    (h : ∀ v ∈ I.operands, Value.subst σ v = Value.subst τ v) : I.subst σ = I.subst τ := by
  simp only [Instruction.subst]
  congr 1
  exact List.map_congr_left h

theorem foldCandidate_none_not_candidate (J : Instruction) (h : foldCandidate J = none) :
    ¬ (J.opcode.isSupported = true ∧ (∃ a, J.getOperand 0 = some (.ConstantInt a)) ∧
      (∃ b, J.getOperand 1 = some (.ConstantInt b))) := by
  rintro ⟨hs, ⟨a, h0⟩, ⟨b, h1⟩⟩
  rw [foldCandidate_consts J a b h0 h1] at h
  exact foldOpcode_supported _ a b hs h

/-- An instruction that the call leaves in the function, all of whose instruction
operands are defined before it in a function with distinct identities, is still
skipped by the loop body when read through the final assignment. -/
theorem Folding.skipped_stable (a3 : Folding) (pre post : List Instruction) (I : Instruction)
    (hrun : Folding.init.run (pre ++ I :: post) = .ok a3)
    (hnd : (pre.map (fun J => J.id) ++ I.id :: post.map (fun J => J.id)).Nodup)
    (hdef : ∀ x, Value.Inst x ∈ I.operands → x ∈ pre.map (fun J => J.id))
    (hrem : I.id ∉ a3.ToRemove) :
    foldCandidate (I.subst a3.σ) = none := by
  obtain ⟨a1, a2, h1, h2, h3⟩ := Folding.run_split _ a3 pre post I hrun
  have hinv1 : a1.Inv := Folding.run_inv _ a1 pre Folding.init_inv h1
  have hinv3 : a3.Inv := Folding.run_inv _ a3 _ Folding.init_inv hrun
  have hskip : foldCandidate (I.subst a1.σ) = none ∧ a2 = a1 := by
    rcases Folding.step_ok a1 a2 I h2 with hs | ⟨c, _, rfl⟩
    · exact hs
    · exact absurd (Folding.run_mem _ a3 post I.id h3 (by simp)) hrem
  obtain ⟨hc, rfl⟩ := hskip
  obtain ⟨⟨new, hn, hs⟩, hmono⟩ := Folding.run_grows a2 a3 post h3
  have heq : I.subst a3.σ = I.subst a2.σ := by
    apply Instruction.subst_congr
    intro v hv
    cases v with
    | Inst x =>
      have hxpre : x ∈ pre.map (fun J => J.id) := hdef x hv
      cases hx1 : a2.σ x with
      | some c => simp [Value.subst, hx1, hmono x c hx1]
      | none =>
        have hx1r : x ∉ a2.ToRemove := fun hm => (hinv1.dom x).2 hm hx1
        have hxpost : x ∉ post.map (fun J => J.id) := by
          intro hm
          exact (List.nodup_append.1 hnd).2.2 hxpre (List.mem_cons_of_mem _ hm)
        have hx3r : x ∉ a3.ToRemove := by
          rw [hn]
          intro hm
          rcases List.mem_append.1 hm with hm | hm
          · exact hx1r hm
          · exact hxpost (hs.subset hm)
        have hx3 : a3.σ x = none := by
          by_contra hne
          exact hx3r ((hinv3.dom x).1 hne)
        simp [Value.subst, hx1, hx3]
    | ConstantInt d => rfl
    | Argument n => rfl
    | Other n => rfl
  rw [heq]
  exact hc

theorem myConstantPropagation_no_candidate (f : Function)
    (h : ∀ I ∈ f.flatten, ¬ (I.opcode.isSupported = true ∧
      (∃ a, I.getOperand 0 = some (.ConstantInt a)) ∧
      (∃ b, I.getOperand 1 = some (.ConstantInt b)))) :
    myConstantPropagation f = .ok (false, f) := by
  rw [myConstantPropagation_eq, Folding.run_no_candidate f.flatten h]
  simp only [Folding.result_nil f Folding.init Folding.init_inv rfl]
  rfl

/-! ## The returned flag against the fold candidates of the input -/

theorem Folding.run_folds_mem (a3 : Folding) (L : List Instruction) (I : Instruction)
    (A B : APInt) (h : Folding.init.run L = .ok a3) (hI : I ∈ L)
    (hop : I.opcode.isSupported = true)
    (h0 : I.getOperand 0 = some (.ConstantInt A))
    (h1 : I.getOperand 1 = some (.ConstantInt B)) :
    I.id ∈ a3.ToRemove := by
  obtain ⟨pre, post, rfl⟩ := List.append_of_mem hI
  exact Folding.run_folds_const a3 pre post I A B h hop h0 h1

/-- The call returns false with some function exactly when the input has no
instruction with a supported opcode and two integer-constant operands, and the
function is then the input. -/
theorem myConstantPropagation_false_iff (f g : Function) :
    myConstantPropagation f = .ok (false, g) ↔
      (g = f ∧ ∀ I ∈ f.flatten, ¬ (I.opcode.isSupported = true ∧
        (∃ a, I.getOperand 0 = some (.ConstantInt a)) ∧
        (∃ b, I.getOperand 1 = some (.ConstantInt b)))) := by
  constructor
  · intro h
    obtain ⟨a, hrun, hinv, hch, hg⟩ := myConstantPropagation_ok f g false h
    have hnil : a.ToRemove = [] := by
      by_contra hne
      have ht := hinv.chg.2 hne
      rw [← hch] at ht
      cases ht
    refine ⟨by rw [hg, Folding.result_nil f a hinv hnil], ?_⟩
    rintro I hI ⟨hs, ⟨A, h0⟩, ⟨B, h1⟩⟩
    have hm := Folding.run_folds_mem a f.flatten I A B hrun hI hs h0 h1
    rw [hnil] at hm
    cases hm
  · rintro ⟨rfl, hno⟩
    exact myConstantPropagation_no_candidate g hno

/-! ## The claims -/

/-- C1 (soundness of a fold). When the loop body visits an instruction whose opcode is
one of Add, Sub, Mul, SDiv, Shl, Or and whose two operands are the integer constants
`a` and `b` of width `w` (with `b ≠ 0` for SDiv), it does fold: every use of the
instruction is replaced by a constant of width `w` with value `c`, the instruction is
recorded for removal, and `c` is the opcode applied to `a` and `b` at width `w`:
`(a+b) mod 2^w`, `(a-b) mod 2^w`, `(a*b) mod 2^w`, the signed quotient truncated
toward zero and wrapped to `w` bits, `(a*2^b) mod 2^w`, and the bitwise or. -/
theorem C1_fold_sound (st : State) (Inst : Instruction) (w a b : Nat)
    (hop : Inst.opcode ∈ [Opcode.Add, Opcode.Sub, Opcode.Mul, Opcode.SDiv, Opcode.Shl, Opcode.Or])
    (h0 : Inst.getOperand 0 = some (.ConstantInt ⟨w, a⟩))
    (h1 : Inst.getOperand 1 = some (.ConstantInt ⟨w, b⟩))
    (ha : a < 2 ^ w) (hb : b < 2 ^ w)
    (hdiv : Inst.opcode = .SDiv → b ≠ 0) :
    ∃ c : Nat,
      visitInst st Inst =
        .ok { Foo := st.Foo.replaceAllUsesWith Inst.id (.ConstantInt ⟨w, c⟩)
              ToRemove := st.ToRemove ++ [Inst.id]
              changed := true } ∧
      (Inst.opcode = .Add → c = (a + b) % 2 ^ w) ∧
      (Inst.opcode = .Sub → (c : Int) = ((a : Int) - b) % 2 ^ w) ∧
      (Inst.opcode = .Mul → c = (a * b) % 2 ^ w) ∧
      (Inst.opcode = .SDiv →
        (c : Int) = (Int.tdiv (APInt.toSigned ⟨w, a⟩) (APInt.toSigned ⟨w, b⟩)) % 2 ^ w) ∧
      (Inst.opcode = .Shl → c = (a * 2 ^ b) % 2 ^ w) ∧
      (Inst.opcode = .Or → c = a ||| b) := by
  have hc := foldCandidate_consts Inst _ _ h0 h1
  rw [visitInst_eq, hc]
  obtain ⟨i, op, ops⟩ := Inst
  simp only [List.mem_cons, List.mem_singleton, List.not_mem_nil, or_false] at hop hdiv ⊢
  rcases hop with rfl | rfl | rfl | rfl | rfl | rfl
  · exact ⟨(a + b) % 2 ^ w, by simp [foldOpcode, APInt.add], by simp⟩
  · exact ⟨(a + (2 ^ w - b)) % 2 ^ w, by simp [foldOpcode, APInt.sub],
      by simpa using APInt.sub_spec w a b hb⟩
  · exact ⟨(a * b) % 2 ^ w, by simp [foldOpcode, APInt.mul], by simp⟩
  · obtain ⟨c, h1, h2⟩ := APInt.sdiv_spec w a b ha hb (hdiv rfl)
    exact ⟨c, by simp [foldOpcode, h1], by simpa using h2⟩
  · exact ⟨(a * 2 ^ b) % 2 ^ w, by simp [foldOpcode, APInt.shl_spec], by simp⟩
  · exact ⟨a ||| b, by simp [foldOpcode, APInt.or], by simp⟩

/-- Witness for C1: `sdiv i32 -7, 2` visited in a function that uses its result. -/
theorem C1_fold_sound_witness :
    ∃ c : Nat,
      visitInst { Foo := [[⟨1, .SDiv, [i32 4294967289, i32 2]⟩, ⟨2, .Ret, [.Inst 1]⟩]]
                  ToRemove := [], changed := false }
          ⟨1, .SDiv, [i32 4294967289, i32 2]⟩ =
        .ok { Foo := Function.replaceAllUsesWith
                [[⟨1, .SDiv, [i32 4294967289, i32 2]⟩, ⟨2, .Ret, [.Inst 1]⟩]] 1
                (.ConstantInt ⟨32, c⟩)
              ToRemove := [] ++ [1]
              changed := true } ∧
      (Opcode.SDiv = Opcode.Add → c = (4294967289 + 2) % 2 ^ 32) ∧
      (Opcode.SDiv = Opcode.Sub → (c : Int) = ((4294967289 : Nat) - (2 : Nat)) % 2 ^ 32) ∧
      (Opcode.SDiv = Opcode.Mul → c = (4294967289 * 2) % 2 ^ 32) ∧
      (Opcode.SDiv = Opcode.SDiv →
        (c : Int) = (Int.tdiv (APInt.toSigned ⟨32, 4294967289⟩) (APInt.toSigned ⟨32, 2⟩)) % 2 ^ 32) ∧
      (Opcode.SDiv = Opcode.Shl → c = (4294967289 * 2 ^ 2) % 2 ^ 32) ∧
      (Opcode.SDiv = Opcode.Or → c = 4294967289 ||| 2) :=
  C1_fold_sound _ ⟨1, .SDiv, [i32 4294967289, i32 2]⟩ 32 4294967289 2
    (by decide) rfl rfl (by decide) (by decide) (by decide)

/-- C2 (division by zero): on `%1 = sdiv i32 10, 0; ret i32 %1` the call does not
leave the instruction in place and return false; the loop body hands the zero
divisor to the host `sdiv`, whose assertion fails, and the call faults. -/
theorem C2_sdiv_by_zero_faults :
    myConstantPropagation exSDivZero = .error .DivideByZero := rfl

/-- C3, refuted as stated: on `%1 = add i32 2, 3; %2 = mul i32 %1, 4; ret i32 %2` a
single call folds `%2` as well: it returns true, `%2` is no longer in the function,
the `ret` reads `20`, and a second call finds nothing to fold. -/
theorem C3_single_call_folds_user :
    myConstantPropagation exChain = .ok (true, exRet20) ∧
    2 ∉ exRet20.ids ∧
    myConstantPropagation exRet20 = .ok (false, exRet20) :=
  ⟨rfl, by decide, rfl⟩

/-- C3, amended (forward propagation within one call). If a supported instruction `X`
with two constant operands is followed in traversal order by a supported instruction
`Y` whose operands are `X` and a constant, then every call that returns has folded
both: it returns true and neither `X` nor `Y` is in the function afterwards. -/
theorem C3_forward_propagation (f f1 : Function) (changed : Bool)
    (pre mid post : List Instruction) (X Y : Instruction) (a b c : APInt)
    (hf : f.flatten = pre ++ X :: (mid ++ Y :: post))
    (hX : X.opcode ∈ [Opcode.Add, Opcode.Sub, Opcode.Mul, Opcode.SDiv, Opcode.Shl, Opcode.Or])
    (hX0 : X.getOperand 0 = some (.ConstantInt a))
    (hX1 : X.getOperand 1 = some (.ConstantInt b))
    (hY : Y.opcode ∈ [Opcode.Add, Opcode.Sub, Opcode.Mul, Opcode.SDiv, Opcode.Shl, Opcode.Or])
    (hYops : (Y.getOperand 0 = some (.Inst X.id) ∧ Y.getOperand 1 = some (.ConstantInt c)) ∨
      (Y.getOperand 0 = some (.ConstantInt c) ∧ Y.getOperand 1 = some (.Inst X.id)))
    (h : myConstantPropagation f = .ok (changed, f1)) :
    changed = true ∧ X.id ∉ f1.ids ∧ Y.id ∉ f1.ids := by
  obtain ⟨a5, hrun, hinv, rfl, rfl⟩ := myConstantPropagation_ok f f1 changed h
  rw [hf] at hrun
  have hXr : X.id ∈ a5.ToRemove :=
    Folding.run_folds_const a5 pre _ X a b hrun ((Opcode.isSupported_iff _).2 hX) hX0 hX1
  obtain ⟨a1, a2, _, h2, h3⟩ := Folding.run_split _ a5 pre _ X hrun
  obtain ⟨_, cx, hcx⟩ := Folding.step_folds a1 a2 X a b ((Opcode.isSupported_iff _).2 hX)
    (by simp [Instruction.getOperand_subst, hX0, Value.subst])
    (by simp [Instruction.getOperand_subst, hX1, Value.subst]) h2
  obtain ⟨a3, a4, h4, h5, h6⟩ := Folding.run_split a2 a5 mid post Y h3
  have hcx3 : a3.σ X.id = some cx := (Folding.run_grows a2 a3 mid h4).2 _ _ hcx
  have hYr : Y.id ∈ a5.ToRemove := by
    rcases hYops with ⟨hY0, hY1⟩ | ⟨hY0, hY1⟩
    · exact Folding.run_mem a4 a5 post Y.id h6
        (Folding.step_folds a3 a4 Y cx c ((Opcode.isSupported_iff _).2 hY)
          (by simp [Instruction.getOperand_subst, hY0, Value.subst, hcx3])
          (by simp [Instruction.getOperand_subst, hY1, Value.subst]) h5).1
    · exact Folding.run_mem a4 a5 post Y.id h6
        (Folding.step_folds a3 a4 Y c cx ((Opcode.isSupported_iff _).2 hY)
          (by simp [Instruction.getOperand_subst, hY0, Value.subst])
          (by simp [Instruction.getOperand_subst, hY1, Value.subst, hcx3]) h5).1
  refine ⟨hinv.chg.2 (List.ne_nil_of_mem hXr), ?_, ?_⟩
  · intro hm
    exact ((Folding.mem_result_ids f a5 _).1 hm).2 hXr
  · intro hm
    exact ((Folding.mem_result_ids f a5 _).1 hm).2 hYr

/-- Witness for the amended C3: the function `%1 = add i32 2, 3; %2 = mul i32 %1, 4;
ret i32 %2`. -/
theorem C3_forward_propagation_witness :
    true = true ∧
    (⟨1, .Add, [i32 2, i32 3]⟩ : Instruction).id ∉ exRet20.ids ∧
    (⟨2, .Mul, [.Inst 1, i32 4]⟩ : Instruction).id ∉ exRet20.ids :=
  C3_forward_propagation exChain exRet20 true [] [] [⟨3, .Ret, [.Inst 2]⟩]
    ⟨1, .Add, [i32 2, i32 3]⟩ ⟨2, .Mul, [.Inst 1, i32 4]⟩ ⟨32, 2⟩ ⟨32, 3⟩ ⟨32, 4⟩
    rfl (by decide) rfl rfl (by decide) (Or.inl ⟨rfl, rfl⟩) rfl

/-- C4 (return value). For every call that returns, with flag `changed` and function
`f1`: the flag is true exactly when the worklist of folded instructions is non-empty
at the end of the traversal, equivalently exactly when some instruction of the input
is gone from `f1`; the flag is false exactly when the input has no fold candidate (no
instruction with a supported opcode and two integer-constant operands), and then the
function is the input, unmodified. Moreover, for every function, the call returns
false with a function `g` exactly when the input has no fold candidate and `g` is
the input. -/
theorem C4_return_value (f f1 : Function) (changed : Bool)
    (h : myConstantPropagation f = .ok (changed, f1)) :
    ∃ st, traverse { Foo := f, ToRemove := [], changed := false } f.positions = .ok st ∧
      changed = st.changed ∧ f1 = eraseAll st.Foo st.ToRemove ∧
      (changed = true ↔ st.ToRemove ≠ []) ∧
      (changed = true ↔ ∃ I ∈ f.flatten, I.id ∉ f1.ids) ∧
      (changed = false → f1 = f) ∧
      (changed = false ↔ ∀ I ∈ f.flatten,
        ¬ (I.opcode ∈ [Opcode.Add, Opcode.Sub, Opcode.Mul, Opcode.SDiv, Opcode.Shl, Opcode.Or] ∧
          (∃ a, I.getOperand 0 = some (.ConstantInt a)) ∧
          (∃ b, I.getOperand 1 = some (.ConstantInt b)))) ∧
      (changed = true ↔ ∃ I ∈ f.flatten,
        I.opcode ∈ [Opcode.Add, Opcode.Sub, Opcode.Mul, Opcode.SDiv, Opcode.Shl, Opcode.Or] ∧
          (∃ a, I.getOperand 0 = some (.ConstantInt a)) ∧
          (∃ b, I.getOperand 1 = some (.ConstantInt b))) ∧
      ∀ g : Function, myConstantPropagation f = .ok (false, g) ↔
        (g = f ∧ ∀ I ∈ f.flatten,
          ¬ (I.opcode ∈ [Opcode.Add, Opcode.Sub, Opcode.Mul, Opcode.SDiv, Opcode.Shl, Opcode.Or] ∧
            (∃ a, I.getOperand 0 = some (.ConstantInt a)) ∧
            (∃ b, I.getOperand 1 = some (.ConstantInt b)))) := by
  have hcand : ∀ I : Instruction,
      (I.opcode ∈ [Opcode.Add, Opcode.Sub, Opcode.Mul, Opcode.SDiv, Opcode.Shl, Opcode.Or] ∧
        (∃ a, I.getOperand 0 = some (.ConstantInt a)) ∧
        (∃ b, I.getOperand 1 = some (.ConstantInt b))) ↔
      (I.opcode.isSupported = true ∧ (∃ a, I.getOperand 0 = some (.ConstantInt a)) ∧
        (∃ b, I.getOperand 1 = some (.ConstantInt b))) := by
    intro I
    rw [Opcode.isSupported_iff]
  have htotal : ∀ g : Function, myConstantPropagation f = .ok (false, g) ↔
      (g = f ∧ ∀ I ∈ f.flatten,
        ¬ (I.opcode ∈ [Opcode.Add, Opcode.Sub, Opcode.Mul, Opcode.SDiv, Opcode.Shl, Opcode.Or] ∧
          (∃ a, I.getOperand 0 = some (.ConstantInt a)) ∧
          (∃ b, I.getOperand 1 = some (.ConstantInt b)))) := by
    intro g
    rw [myConstantPropagation_false_iff]
    simp only [hcand]
  have hfalseiff : changed = false ↔ ∀ I ∈ f.flatten,
      ¬ (I.opcode ∈ [Opcode.Add, Opcode.Sub, Opcode.Mul, Opcode.SDiv, Opcode.Shl, Opcode.Or] ∧
        (∃ a, I.getOperand 0 = some (.ConstantInt a)) ∧
        (∃ b, I.getOperand 1 = some (.ConstantInt b))) := by
    constructor
    · intro hc
      subst hc
      exact ((htotal f1).1 h).2
    · intro hno
      have h2 := (htotal f).2 ⟨rfl, hno⟩
      rw [h] at h2
      simp only [Except.ok.injEq, Prod.mk.injEq] at h2
      exact h2.1
  have htrueiff : changed = true ↔ ∃ I ∈ f.flatten,
      I.opcode ∈ [Opcode.Add, Opcode.Sub, Opcode.Mul, Opcode.SDiv, Opcode.Shl, Opcode.Or] ∧
        (∃ a, I.getOperand 0 = some (.ConstantInt a)) ∧
        (∃ b, I.getOperand 1 = some (.ConstantInt b)) := by
    constructor
    · intro hc
      by_contra hne
      have hf := hfalseiff.2 (fun I hI hcd => hne ⟨I, hI, hcd⟩)
      rw [hc] at hf
      cases hf
    · rintro ⟨I, hI, hcd⟩
      by_contra hc
      have hc2 : changed = false := by simpa using hc
      exact hfalseiff.1 hc2 I hI hcd
  obtain ⟨a, hrun, hinv, rfl, rfl⟩ := myConstantPropagation_ok f f1 changed h
  have ht := traverse_init f
  rw [hrun] at ht
  have hf1 : a.result f = eraseAll (a.toState f).Foo (a.toState f).ToRemove := by
    have := h
    simp only [myConstantPropagation, ht, Except.ok.injEq, Prod.mk.injEq] at this
    exact this.2.symm
  have hfalse : a.changed = false → a.result f = f := by
    intro hc
    have hnil : a.ToRemove = [] := by
      by_contra hne
      have := hinv.chg.2 hne
      rw [hc] at this
      cases this
    exact Folding.result_nil f a hinv hnil
  refine ⟨a.toState f, ht, rfl, hf1, hinv.chg, ?_, hfalse, hfalseiff, htrueiff, htotal⟩
  constructor
  · intro hc
    obtain ⟨x, hx⟩ := List.exists_mem_of_ne_nil _ (hinv.chg.1 hc)
    obtain ⟨⟨new, hn, hs⟩, _⟩ := Folding.run_grows _ a _ hrun
    have hxn : x ∈ new := by
      rw [hn] at hx
      simpa [Folding.init] using hx
    obtain ⟨I, hI, rfl⟩ := List.mem_map.1 (hs.subset hxn)
    exact ⟨I, hI, fun hm => ((Folding.mem_result_ids f a _).1 hm).2 hx⟩
  · rintro ⟨I, hI, hn⟩
    by_contra hc
    have hc2 : a.changed = false := by simpa using hc
    rw [hfalse hc2] at hn
    exact hn (List.mem_map.2 ⟨I, hI, rfl⟩)

/-- Witness for C4: `%1 = add i32 5, 3; ret i32 %1`, on which the call returns true. -/
theorem C4_return_value_witness :
    ∃ st, traverse { Foo := exAddRet, ToRemove := [], changed := false } exAddRet.positions =
        .ok st ∧
      true = st.changed ∧ exRet8 = eraseAll st.Foo st.ToRemove ∧
      (true = true ↔ st.ToRemove ≠ []) ∧
      (true = true ↔ ∃ I ∈ exAddRet.flatten, I.id ∉ exRet8.ids) ∧
      (true = false → exRet8 = exAddRet) ∧
      (true = false ↔ ∀ I ∈ exAddRet.flatten,
        ¬ (I.opcode ∈ [Opcode.Add, Opcode.Sub, Opcode.Mul, Opcode.SDiv, Opcode.Shl, Opcode.Or] ∧
          (∃ a, I.getOperand 0 = some (.ConstantInt a)) ∧
          (∃ b, I.getOperand 1 = some (.ConstantInt b)))) ∧
      (true = true ↔ ∃ I ∈ exAddRet.flatten,
        I.opcode ∈ [Opcode.Add, Opcode.Sub, Opcode.Mul, Opcode.SDiv, Opcode.Shl, Opcode.Or] ∧
          (∃ a, I.getOperand 0 = some (.ConstantInt a)) ∧
          (∃ b, I.getOperand 1 = some (.ConstantInt b))) ∧
      ∀ g : Function, myConstantPropagation exAddRet = .ok (false, g) ↔
        (g = exAddRet ∧ ∀ I ∈ exAddRet.flatten,
          ¬ (I.opcode ∈ [Opcode.Add, Opcode.Sub, Opcode.Mul, Opcode.SDiv, Opcode.Shl, Opcode.Or] ∧
            (∃ a, I.getOperand 0 = some (.ConstantInt a)) ∧
            (∃ b, I.getOperand 1 = some (.ConstantInt b)))) :=
  C4_return_value exAddRet exRet8 true rfl

/-- C5 (use-completeness). After a call that returns, no remaining instruction has an
operand that refers to an instruction removed by the call; and there is one constant
per removed instruction (`σ`) such that every instruction of the input that remains
is still there with each operand that referred to a removed instruction `x` now
holding the constant `σ x`. -/
theorem C5_use_complete (f f1 : Function) (changed : Bool)
    (h : myConstantPropagation f = .ok (changed, f1)) :
    (∀ J ∈ f1.flatten, ∀ x, Value.Inst x ∈ J.operands → ¬ (x ∈ f.ids ∧ x ∉ f1.ids)) ∧
    ∃ σ : Nat → Option APInt,
      (∀ x, x ∈ f.ids → (σ x ≠ none ↔ x ∉ f1.ids)) ∧
      ∀ I ∈ f.flatten, I.id ∈ f1.ids →
        ∃ I1 ∈ f1.flatten, I1.id = I.id ∧ I1.opcode = I.opcode ∧
          I1.operands.length = I.operands.length ∧
          ∀ k x c, I.getOperand k = some (.Inst x) → σ x = some c →
            I1.getOperand k = some (.ConstantInt c) := by
  obtain ⟨a, hrun, hinv, rfl, rfl⟩ := myConstantPropagation_ok f f1 changed h
  refine ⟨?_, a.σ, ?_, ?_⟩
  · intro J hJ x hx hrem
    rw [Folding.result_flatten] at hJ
    obtain ⟨I, _, rfl⟩ := List.mem_map.1 hJ
    simp only [Instruction.subst, List.mem_map] at hx
    obtain ⟨v, _, hv⟩ := hx
    have hσ : a.σ x = none := by
      cases v with
      | Inst y =>
        simp only [Value.subst] at hv
        cases hy : a.σ y with
        | none =>
          rw [hy] at hv
          simp only [Value.Inst.injEq] at hv
          rw [← hv]; exact hy
        | some d => rw [hy] at hv; cases hv
      | ConstantInt d => cases hv
      | Argument n => cases hv
      | Other n => cases hv
    have hxr : x ∉ a.ToRemove := fun hm => ((hinv.dom x).2 hm) hσ
    exact hrem.2 ((Folding.mem_result_ids f a x).2 ⟨hrem.1, hxr⟩)
  · intro x hx
    rw [hinv.dom x, Folding.mem_result_ids]
    constructor
    · intro hr hm; exact hm.2 hr
    · intro hn
      by_contra hr
      exact hn ⟨hx, hr⟩
  · intro I hI hrem
    have hnr : I.id ∉ a.ToRemove := ((Folding.mem_result_ids f a _).1 hrem).2
    refine ⟨I.subst a.σ, ?_, rfl, rfl, by simp [Instruction.subst], ?_⟩
    · rw [Folding.result_flatten]
      exact List.mem_map.2 ⟨I, List.mem_filter.2 ⟨hI, by simpa using hnr⟩, rfl⟩
    · intro k x c hk hc
      simp [Instruction.getOperand_subst, hk, Value.subst, hc]

/-- Witness for C5: `%1 = add i32 5, 3; ret i32 %1`. -/
theorem C5_use_complete_witness :
    (∀ J ∈ exRet8.flatten, ∀ x, Value.Inst x ∈ J.operands →
      ¬ (x ∈ exAddRet.ids ∧ x ∉ exRet8.ids)) ∧
    ∃ σ : Nat → Option APInt,
      (∀ x, x ∈ exAddRet.ids → (σ x ≠ none ↔ x ∉ exRet8.ids)) ∧
      ∀ I ∈ exAddRet.flatten, I.id ∈ exRet8.ids →
        ∃ I1 ∈ exRet8.flatten, I1.id = I.id ∧ I1.opcode = I.opcode ∧
          I1.operands.length = I.operands.length ∧
          ∀ k x c, I.getOperand k = some (.Inst x) → σ x = some c →
            I1.getOperand k = some (.ConstantInt c) :=
  C5_use_complete exAddRet exRet8 true rfl

/-- C6 (no-op on non-candidates). A function with no instruction that has a supported
opcode and two integer-constant operands is returned unchanged, block for block and
operand for operand, and the call returns false. -/
theorem C6_no_candidate_noop (f : Function)
    (h : ∀ I ∈ f.flatten,
      ¬ (I.opcode ∈ [Opcode.Add, Opcode.Sub, Opcode.Mul, Opcode.SDiv, Opcode.Shl, Opcode.Or] ∧
        (∃ a, I.getOperand 0 = some (.ConstantInt a)) ∧
        (∃ b, I.getOperand 1 = some (.ConstantInt b)))) :
    myConstantPropagation f = .ok (false, f) := by
  have hrun : Folding.init.run f.flatten = .ok Folding.init :=
    Folding.run_no_candidate f.flatten
      (fun I hI hc => h I hI ⟨(Opcode.isSupported_iff _).1 hc.1, hc.2⟩)
  rw [myConstantPropagation_eq, hrun]
  simp only [Folding.result_nil f Folding.init Folding.init_inv rfl]
  rfl

/-- Witness for C6: `%1 = add i32 %arg0, 3; %2 = udiv i32 4, 2; ret i32 %1`. -/
theorem C6_no_candidate_noop_witness :
    myConstantPropagation exNoCandidate = .ok (false, exNoCandidate) :=
  C6_no_candidate_noop exNoCandidate (by
    intro I hI
    simp only [exNoCandidate, List.flatten_cons, List.flatten_nil, List.append_nil,
      List.mem_cons, List.mem_singleton, List.not_mem_nil, or_false] at hI
    rcases hI with rfl | rfl | rfl <;> simp [Instruction.getOperand])

/-- C7 (completeness for the non-dividing opcodes), violated by the code: in
`%1 = add i32 1, 2; %2 = sdiv i32 10, 0; ret i32 %2` the `add` has two integer-constant
operands, yet the call does not return true with the `add` gone: the traversal reaches
the `sdiv`, the host division faults on the zero divisor, and the call never gets to
erase the `add` or to return. -/
theorem C7_fault_blocks_fold :
    (∃ I ∈ exAddSDivZero.flatten, I.id = 1 ∧ I.opcode = .Add ∧
      I.getOperand 0 = some (i32 1) ∧ I.getOperand 1 = some (i32 2)) ∧
    myConstantPropagation exAddSDivZero = .error .DivideByZero ∧
    ∀ (changed : Bool) (f1 : Function),
      myConstantPropagation exAddSDivZero ≠ .ok (changed, f1) :=
  ⟨⟨⟨1, .Add, [i32 1, i32 2]⟩, by decide, rfl, rfl, rfl, rfl⟩, rfl,
    fun _ _ h => by
      have he : myConstantPropagation exAddSDivZero = .error .DivideByZero := rfl
      rw [he] at h
      cases h⟩

/-- Completeness for the non-dividing opcodes on the calls that return: an Add, Sub,
Mul, Or or Shl instruction of the function whose two operands are integer constants
is folded by every call that returns: the call returns true and the instruction is
absent afterwards. Visiting such an instruction never faults when the two constants
have the same width, and for Shl whatever the shift amount. -/
theorem non_dividing_complete_of_returns (f f1 : Function) (changed : Bool) (I : Instruction)
    (a b : APInt) (hI : I ∈ f.flatten)
    (hop : I.opcode ∈ [Opcode.Add, Opcode.Sub, Opcode.Mul, Opcode.Or, Opcode.Shl])
    (h0 : I.getOperand 0 = some (.ConstantInt a))
    (h1 : I.getOperand 1 = some (.ConstantInt b))
    (h : myConstantPropagation f = .ok (changed, f1)) :
    changed = true ∧ I.id ∉ f1.ids ∧
    (a.BitWidth = b.BitWidth ∨ I.opcode = .Shl →
      ∀ st : State, ∃ c,
        visitInst st I =
          .ok { Foo := st.Foo.replaceAllUsesWith I.id (.ConstantInt c)
                ToRemove := st.ToRemove ++ [I.id]
                changed := true }) := by
  obtain ⟨a5, hrun, hinv, rfl, rfl⟩ := myConstantPropagation_ok f f1 changed h
  have hsup : I.opcode.isSupported = true := by
    apply (Opcode.isSupported_iff _).2
    simp only [List.mem_cons, List.mem_singleton, List.not_mem_nil, or_false] at hop ⊢
    rcases hop with h | h | h | h | h <;> simp [h]
  obtain ⟨pre, post, hsplit⟩ := List.append_of_mem hI
  rw [hsplit] at hrun
  have hr : I.id ∈ a5.ToRemove := Folding.run_folds_const a5 pre post I a b hrun hsup h0 h1
  refine ⟨hinv.chg.2 (List.ne_nil_of_mem hr),
    fun hm => ((Folding.mem_result_ids f a5 _).1 hm).2 hr, ?_⟩
  intro hw st
  have hfo : ∃ c, foldOpcode I.opcode a b = some (.ok c) := by
    obtain ⟨i, op, ops⟩ := I
    simp only [List.mem_cons, List.mem_singleton, List.not_mem_nil, or_false] at hop hw ⊢
    rcases hop with rfl | rfl | rfl | rfl | rfl
    · have hw2 : a.BitWidth = b.BitWidth := by simpa using hw
      exact ⟨⟨a.BitWidth, (a.VAL + b.VAL) % 2 ^ a.BitWidth⟩, by simp [foldOpcode, APInt.add, hw2]⟩
    · have hw2 : a.BitWidth = b.BitWidth := by simpa using hw
      exact ⟨⟨a.BitWidth, (a.VAL + (2 ^ a.BitWidth - b.VAL)) % 2 ^ a.BitWidth⟩,
        by simp [foldOpcode, APInt.sub, hw2]⟩
    · have hw2 : a.BitWidth = b.BitWidth := by simpa using hw
      exact ⟨⟨a.BitWidth, (a.VAL * b.VAL) % 2 ^ a.BitWidth⟩, by simp [foldOpcode, APInt.mul, hw2]⟩
    · have hw2 : a.BitWidth = b.BitWidth := by simpa using hw
      exact ⟨⟨a.BitWidth, a.VAL ||| b.VAL⟩, by simp [foldOpcode, APInt.or, hw2]⟩
    · exact ⟨a.shl b, rfl⟩
  obtain ⟨c, hc⟩ := hfo
  exact ⟨c, by rw [visitInst_eq, foldCandidate_consts I a b h0 h1, hc]⟩

/-- Completeness on a returning call, at the `shl i32 1, 40` (shift amount above the
width) of a two-block function. -/
theorem non_dividing_complete_of_returns_example :
    true = true ∧ (⟨2, .Shl, [i32 1, i32 40]⟩ : Instruction).id ∉ exTwoBlocksFolded.ids ∧
    ((⟨32, 1⟩ : APInt).BitWidth = (⟨32, 40⟩ : APInt).BitWidth ∨
        (⟨2, .Shl, [i32 1, i32 40]⟩ : Instruction).opcode = .Shl →
      ∀ st : State, ∃ c,
        visitInst st ⟨2, .Shl, [i32 1, i32 40]⟩ =
          .ok { Foo := st.Foo.replaceAllUsesWith
                  (⟨2, .Shl, [i32 1, i32 40]⟩ : Instruction).id (.ConstantInt c)
                ToRemove := st.ToRemove ++ [(⟨2, .Shl, [i32 1, i32 40]⟩ : Instruction).id]
                changed := true }) :=
  non_dividing_complete_of_returns exTwoBlocks exTwoBlocksFolded true ⟨2, .Shl, [i32 1, i32 40]⟩
    ⟨32, 1⟩ ⟨32, 40⟩ (by decide) (by decide) rfl rfl rfl

/-- C8, refuted as stated: in `%1 = shl i32 1, 3; %2 = or i32 %1, 1; ret i32 %2` the
instruction `%2` has an operand that is not an integer constant (it is `%1`), yet the
call folds it: it returns true and `%2` is not in the function afterwards. -/
theorem C8_non_constant_operand_folded :
    (∃ I ∈ exShlOr.flatten, I.id = 2 ∧ I.getOperand 0 = some (.Inst 1)) ∧
    myConstantPropagation exShlOr = .ok (true, exRet9) ∧
    2 ∉ exRet9.ids :=
  ⟨⟨⟨2, .Or, [.Inst 1, i32 1]⟩, by decide, rfl, rfl⟩, rfl, by decide⟩

/-- C8, amended (disqualification is local). In a function whose instructions have
distinct identities, let `Y` be an instruction that is not a binary operator, or whose
opcode is outside the six supported ones, or one of whose two operands is neither an
integer constant nor the result of an earlier instruction that the call removes. Then
every call that returns leaves `Y` in the function with its opcode, and still folds
every later instruction that has a supported opcode and two integer constants. -/
theorem C8_disqualification_local (f f1 : Function) (changed : Bool)
    (pre post : List Instruction) (Y : Instruction)
    (hnd : f.ids.Nodup)
    (hf : f.flatten = pre ++ Y :: post)
    (hY : Y.opcode.isBinaryOp = false ∨
      Y.opcode ∉ [Opcode.Add, Opcode.Sub, Opcode.Mul, Opcode.SDiv, Opcode.Shl, Opcode.Or] ∨
      ∃ k, k < 2 ∧ (∀ c, Y.getOperand k ≠ some (.ConstantInt c)) ∧
        ∀ x, Y.getOperand k = some (.Inst x) →
          ¬ (x ∈ pre.map (fun I => I.id) ∧ x ∉ f1.ids))
    (h : myConstantPropagation f = .ok (changed, f1)) :
    (∃ Y1 ∈ f1.flatten, Y1.id = Y.id ∧ Y1.opcode = Y.opcode) ∧
    ∀ Z ∈ post,
      Z.opcode ∈ [Opcode.Add, Opcode.Sub, Opcode.Mul, Opcode.SDiv, Opcode.Shl, Opcode.Or] →
      (∃ a, Z.getOperand 0 = some (.ConstantInt a)) →
      (∃ b, Z.getOperand 1 = some (.ConstantInt b)) → Z.id ∉ f1.ids := by
  obtain ⟨a3, hrun, hinv, rfl, rfl⟩ := myConstantPropagation_ok f f1 changed h
  rw [hf] at hrun
  obtain ⟨a1, a2, h1, h2, h3⟩ := Folding.run_split _ a3 pre post Y hrun
  have hinv1 : a1.Inv := Folding.run_inv _ a1 pre Folding.init_inv h1
  -- the visit of `Y` skips it
  have hskip : foldCandidate (Y.subst a1.σ) = none := by
    apply foldCandidate_eq_none
    rintro ⟨hs, ⟨c0, h0⟩, ⟨c1, h1c⟩⟩
    rw [Instruction.subst_opcode] at hs
    rcases hY with hb | hu | ⟨k, hk, hnc, hni⟩
    · rw [Opcode.isBinaryOp_of_isSupported _ hs] at hb
      cases hb
    · exact hu ((Opcode.isSupported_iff _).1 hs)
    · have hk' : ∃ c, (Y.subst a1.σ).getOperand k = some (.ConstantInt c) := by
        have : k = 0 ∨ k = 1 := by omega
        rcases this with rfl | rfl
        · exact ⟨c0, h0⟩
        · exact ⟨c1, h1c⟩
      obtain ⟨c, hc⟩ := hk'
      rw [Instruction.getOperand_subst] at hc
      cases hv : Y.getOperand k with
      | none => rw [hv] at hc; cases hc
      | some v =>
        rw [hv] at hc
        simp only [Option.map_some', Option.some.injEq] at hc
        rcases Value.subst_eq_const _ v c hc with rfl | ⟨x, rfl, hx⟩
        · exact hnc c hv
        · have hx1 : x ∈ a1.ToRemove := (hinv1.dom x).1 (by rw [hx]; simp)
          have hx3 : x ∈ a3.ToRemove :=
            Folding.run_mem a2 a3 post x h3 (Folding.step_mem a1 a2 Y x h2 hx1)
          exact hni x hv ⟨Folding.run_removed_subset a1 pre x h1 hx1,
            fun hm => ((Folding.mem_result_ids f a3 x).1 hm).2 hx3⟩
  have h12 : a2 = a1 := Folding.step_skips a1 a2 Y hskip h2
  subst h12
  -- so `Y` is not on the worklist
  have hids : f.ids = pre.map (fun I => I.id) ++ Y.id :: post.map (fun I => I.id) := by
    simp [Function.ids, hf]
  rw [hids] at hnd
  have hYpre : Y.id ∉ pre.map (fun I => I.id) := by
    intro hm
    exact (List.nodup_append.1 hnd).2.2 hm (List.mem_cons_self _ _)
  have hYpost : Y.id ∉ post.map (fun I => I.id) :=
    (List.nodup_cons.1 (List.nodup_append.1 hnd).2.1).1
  have hYr : Y.id ∉ a3.ToRemove := by
    obtain ⟨⟨new, hn, hs⟩, _⟩ := Folding.run_grows a2 a3 post h3
    rw [hn]
    intro hm
    rcases List.mem_append.1 hm with hm | hm
    · exact hYpre (Folding.run_removed_subset a2 pre _ h1 hm)
    · exact hYpost (hs.subset hm)
  refine ⟨⟨Y.subst a3.σ, ?_, rfl, rfl⟩, ?_⟩
  · rw [Folding.result_flatten]
    refine List.mem_map.2 ⟨Y, List.mem_filter.2 ⟨?_, by simpa using hYr⟩, rfl⟩
    rw [hf]
    simp
  · rintro Z hZ hop ⟨a, h0⟩ ⟨b, h1z⟩ hm
    obtain ⟨s, t, rfl⟩ := List.append_of_mem hZ
    have hrun2 : Folding.init.run ((pre ++ Y :: s) ++ Z :: t) = .ok a3 := by
      simpa using hrun
    have hr := Folding.run_folds_const a3 (pre ++ Y :: s) t Z a b hrun2
      ((Opcode.isSupported_iff _).2 hop) h0 h1z
    exact ((Folding.mem_result_ids f _ _).1 hm).2 hr

/-- Witness for the amended C8: the `xor` on a function argument in the first block
of a two-block function, followed by `shl`, `sub`, which are folded. -/
theorem C8_disqualification_local_witness :
    (∃ Y1 ∈ exTwoBlocksFolded.flatten,
      Y1.id = (⟨1, .Xor, [.Argument 0, i32 1]⟩ : Instruction).id ∧
      Y1.opcode = (⟨1, .Xor, [.Argument 0, i32 1]⟩ : Instruction).opcode) ∧
    ∀ Z ∈ ([⟨2, .Shl, [i32 1, i32 40]⟩, ⟨5, .Br, [.Other 0]⟩, ⟨3, .Sub, [i32 0, i32 1]⟩,
        ⟨4, .Add, [.Inst 1, .Inst 3]⟩, ⟨6, .Ret, [.Inst 4]⟩] : List Instruction),
      Z.opcode ∈ [Opcode.Add, Opcode.Sub, Opcode.Mul, Opcode.SDiv, Opcode.Shl, Opcode.Or] →
      (∃ a, Z.getOperand 0 = some (.ConstantInt a)) →
      (∃ b, Z.getOperand 1 = some (.ConstantInt b)) → Z.id ∉ exTwoBlocksFolded.ids :=
  C8_disqualification_local exTwoBlocks exTwoBlocksFolded true []
    [⟨2, .Shl, [i32 1, i32 40]⟩, ⟨5, .Br, [.Other 0]⟩, ⟨3, .Sub, [i32 0, i32 1]⟩,
      ⟨4, .Add, [.Inst 1, .Inst 3]⟩, ⟨6, .Ret, [.Inst 4]⟩]
    ⟨1, .Xor, [.Argument 0, i32 1]⟩ (by decide) rfl (Or.inr (Or.inl (by decide))) rfl

/-- C9 (bit-width preservation). When the loop body visits an instruction with two
constant operands, the left one of width `w` (the host arithmetic asserts that the
right one has the same width), and does not fault, it either leaves the state as it
is or folds the instruction to a constant `R` of width `w`; every operand slot of the
function is then either untouched or a use of the instruction that now holds `R`, a
value of the same width `w` as the instruction it replaces. -/
theorem C9_bit_width_preserved (st st1 : State) (Inst : Instruction) (LHS RHS : APInt)
    (w : Nat)
    (h0 : Inst.getOperand 0 = some (.ConstantInt LHS))
    (h1 : Inst.getOperand 1 = some (.ConstantInt RHS))
    (hw0 : LHS.BitWidth = w)
    (h : visitInst st Inst = .ok st1) :
    st1 = st ∨
    ∃ R : APInt, R.BitWidth = w ∧
      st1 = { Foo := st.Foo.replaceAllUsesWith Inst.id (.ConstantInt R)
              ToRemove := st.ToRemove ++ [Inst.id]
              changed := true } ∧
      ∀ v : Value,
        (v ≠ .Inst Inst.id ∧ v.replaceUsesOfWith Inst.id (.ConstantInt R) = v) ∨
        (v = .Inst Inst.id ∧ v.replaceUsesOfWith Inst.id (.ConstantInt R) = .ConstantInt R) := by
  rw [visitInst_eq, foldCandidate_consts Inst LHS RHS h0 h1] at h
  cases hf : foldOpcode Inst.opcode LHS RHS with
  | none =>
    rw [hf] at h
    simp only [Except.ok.injEq] at h
    exact Or.inl h.symm
  | some r =>
    cases r with
    | error e => rw [hf] at h; cases h
    | ok R =>
      rw [hf] at h
      simp only [Except.ok.injEq] at h
      refine Or.inr ⟨R, (foldOpcode_BitWidth _ _ _ _ hf).trans hw0, h.symm, ?_⟩
      intro v
      by_cases hv : v = .Inst Inst.id
      · exact Or.inr ⟨hv, by simp [Value.replaceUsesOfWith, hv]⟩
      · exact Or.inl ⟨hv, by simp [Value.replaceUsesOfWith, hv]⟩

/-- Witness for C9: `%1 = add i32 5, 3` visited in `%1 = add i32 5, 3; ret i32 %1`. -/
theorem C9_bit_width_preserved_witness :
    ({ Foo := [[⟨1, .Add, [i32 5, i32 3]⟩, ⟨2, .Ret, [i32 8]⟩]], ToRemove := [1],
       changed := true } : State) =
      { Foo := exAddRet, ToRemove := [], changed := false } ∨
    ∃ R : APInt, R.BitWidth = 32 ∧
      ({ Foo := [[⟨1, .Add, [i32 5, i32 3]⟩, ⟨2, .Ret, [i32 8]⟩]], ToRemove := [1],
         changed := true } : State) =
        { Foo := Function.replaceAllUsesWith exAddRet
            (⟨1, .Add, [i32 5, i32 3]⟩ : Instruction).id (.ConstantInt R)
          ToRemove := [] ++ [(⟨1, .Add, [i32 5, i32 3]⟩ : Instruction).id]
          changed := true } ∧
      ∀ v : Value,
        (v ≠ .Inst (⟨1, .Add, [i32 5, i32 3]⟩ : Instruction).id ∧
          v.replaceUsesOfWith (⟨1, .Add, [i32 5, i32 3]⟩ : Instruction).id (.ConstantInt R) = v) ∨
        (v = .Inst (⟨1, .Add, [i32 5, i32 3]⟩ : Instruction).id ∧
          v.replaceUsesOfWith (⟨1, .Add, [i32 5, i32 3]⟩ : Instruction).id (.ConstantInt R) =
            .ConstantInt R) :=
  C9_bit_width_preserved { Foo := exAddRet, ToRemove := [], changed := false }
    { Foo := [[⟨1, .Add, [i32 5, i32 3]⟩, ⟨2, .Ret, [i32 8]⟩]], ToRemove := [1], changed := true }
    ⟨1, .Add, [i32 5, i32 3]⟩ ⟨32, 5⟩ ⟨32, 3⟩ 32 rfl rfl rfl rfl

/-- C10 (deferred removal and frame). For a function whose instructions have distinct
identities and a call that returns: at the end of the traversal every instruction is
still in its block (nothing was unlinked yet) and the function returned is that state
with the worklist erased; the worklist has no repetition and holds exactly the
instructions of the input that are gone afterwards; and the function returned is the
input with those instructions filtered out of their blocks, every other instruction
in its block, in order, with its identity and opcode, its operands read through an
assignment `σ` that is defined exactly on the removed instructions and leaves every
other operand as it was. -/
theorem C10_deferred_removal_frame (f f1 : Function) (changed : Bool)
    (hnd : f.ids.Nodup)
    (h : myConstantPropagation f = .ok (changed, f1)) :
    ∃ (st : State) (σ : Nat → Option APInt),
      traverse { Foo := f, ToRemove := [], changed := false } f.positions = .ok st ∧
      st.Foo.map (fun BB => BB.map (fun I => (I.id, I.opcode))) =
        f.map (fun BB => BB.map (fun I => (I.id, I.opcode))) ∧
      f1 = eraseAll st.Foo st.ToRemove ∧
      st.ToRemove.Nodup ∧
      (∀ x, x ∈ st.ToRemove ↔ x ∈ f.ids ∧ x ∉ f1.ids) ∧
      (∀ x, σ x ≠ none ↔ x ∈ st.ToRemove) ∧
      f1 = f.map (fun BB =>
        (BB.filter (fun I => decide (I.id ∉ st.ToRemove))).map
          (fun I => { I with operands := I.operands.map (Value.subst σ) })) ∧
      ∀ v : Value, (∀ x, v = .Inst x → σ x = none) → Value.subst σ v = v := by
  obtain ⟨a, hrun, hinv, rfl, rfl⟩ := myConstantPropagation_ok f f1 changed h
  have ht := traverse_init f
  rw [hrun] at ht
  have hf1 : a.result f = eraseAll (a.toState f).Foo (a.toState f).ToRemove := by
    have := h
    simp only [myConstantPropagation, ht, Except.ok.injEq, Prod.mk.injEq] at this
    exact this.2.symm
  obtain ⟨⟨new, hn, hs⟩, _⟩ := Folding.run_grows _ a _ hrun
  have hnew : a.ToRemove = new := by simpa [Folding.init] using hn
  refine ⟨a.toState f, a.σ, ht, ?_, hf1, ?_, ?_, hinv.dom, rfl, ?_⟩
  · simp only [Folding.toState, Function.subst, List.map_map]
    apply List.map_congr_left
    intro BB _
    simp only [Function.comp, List.map_map]
    apply List.map_congr_left
    intro I _
    rfl
  · show a.ToRemove.Nodup
    rw [hnew]
    exact List.Nodup.sublist hs hnd
  · intro x
    show x ∈ a.ToRemove ↔ _
    rw [Folding.mem_result_ids]
    constructor
    · intro hx
      exact ⟨Folding.run_removed_subset a _ x hrun hx, fun hm => hm.2 hx⟩
    · rintro ⟨hx, hn2⟩
      by_contra hr
      exact hn2 ⟨hx, hr⟩
  · intro v hv
    cases v with
    | Inst y => simp [Value.subst, hv y rfl]
    | ConstantInt d => rfl
    | Argument n => rfl
    | Other n => rfl

/-- Witness for C10: the two-block function, where `shl` leaves the first block and
`sub` the second. -/
theorem C10_deferred_removal_frame_witness :
    ∃ (st : State) (σ : Nat → Option APInt),
      traverse { Foo := exTwoBlocks, ToRemove := [], changed := false } exTwoBlocks.positions =
        .ok st ∧
      st.Foo.map (fun BB => BB.map (fun I => (I.id, I.opcode))) =
        exTwoBlocks.map (fun BB => BB.map (fun I => (I.id, I.opcode))) ∧
      exTwoBlocksFolded = eraseAll st.Foo st.ToRemove ∧
      st.ToRemove.Nodup ∧
      (∀ x, x ∈ st.ToRemove ↔ x ∈ exTwoBlocks.ids ∧ x ∉ exTwoBlocksFolded.ids) ∧
      (∀ x, σ x ≠ none ↔ x ∈ st.ToRemove) ∧
      exTwoBlocksFolded = exTwoBlocks.map (fun BB =>
        (BB.filter (fun I => decide (I.id ∉ st.ToRemove))).map
          (fun I => { I with operands := I.operands.map (Value.subst σ) })) ∧
      ∀ v : Value, (∀ x, v = .Inst x → σ x = none) → Value.subst σ v = v :=
  C10_deferred_removal_frame exTwoBlocks exTwoBlocksFolded true (by decide) rfl

/-- C11 (one-pass fixpoint under def-before-use layout). Let every operand that is an
instruction result be defined earlier in traversal order than its user, in a function
whose instructions have distinct identities, and let the call return (no SDiv was
evaluated with a zero constant divisor). Then the function it produces has no
instruction with a supported opcode and two integer-constant operands, and a second
call returns false and leaves that function as it is. The layout condition is
needed: some function with distinct identities that violates it (the user in an
earlier block than the folded definition) makes the second call return true. -/
theorem C11_one_pass_fixpoint (f f1 : Function) (changed : Bool)
    (hnd : f.ids.Nodup)
    (hlay : f.defBeforeUse = true)
    (h : myConstantPropagation f = .ok (changed, f1)) :
    (∀ I ∈ f1.flatten,
      ¬ (I.opcode ∈ [Opcode.Add, Opcode.Sub, Opcode.Mul, Opcode.SDiv, Opcode.Shl, Opcode.Or] ∧
        (∃ a, I.getOperand 0 = some (.ConstantInt a)) ∧
        (∃ b, I.getOperand 1 = some (.ConstantInt b)))) ∧
    myConstantPropagation f1 = .ok (false, f1) ∧
    ∃ g g1 g2 : Function,
      g.ids.Nodup ∧ g.defBeforeUse = false ∧
      myConstantPropagation g = .ok (true, g1) ∧
      myConstantPropagation g1 = .ok (true, g2) := by
  obtain ⟨a3, hrun, _, rfl, rfl⟩ := myConstantPropagation_ok f f1 changed h
  have hnone : ∀ J ∈ (a3.result f).flatten, ¬ (J.opcode.isSupported = true ∧
      (∃ a, J.getOperand 0 = some (.ConstantInt a)) ∧
      (∃ b, J.getOperand 1 = some (.ConstantInt b))) := by
    intro J hJ
    rw [Folding.result_flatten] at hJ
    obtain ⟨I, hI, rfl⟩ := List.mem_map.1 hJ
    obtain ⟨hIf, hIr⟩ := List.mem_filter.1 hI
    have hrem : I.id ∉ a3.ToRemove := by simpa using hIr
    obtain ⟨pre, post, hsplit⟩ := List.append_of_mem hIf
    have hids : f.ids = pre.map (fun J => J.id) ++ I.id :: post.map (fun J => J.id) := by
      simp [Function.ids, hsplit]
    have hdef : ∀ x, Value.Inst x ∈ I.operands → x ∈ pre.map (fun J => J.id) := by
      intro x hx
      have hl := hlay
      simp only [Function.defBeforeUse, hsplit] at hl
      simpa using defBeforeUseFrom_split [] pre post I hl x hx
    apply foldCandidate_none_not_candidate
    exact Folding.skipped_stable a3 pre post I (hsplit ▸ hrun) (hids ▸ hnd) hdef hrem
  refine ⟨fun I hI hc => hnone I hI ⟨(Opcode.isSupported_iff _).2 hc.1, hc.2⟩,
    myConstantPropagation_no_candidate _ hnone,
    exUseBeforeDef, exUseBeforeDef1, exUseBeforeDef2, by decide, by decide, rfl, rfl⟩

/-- Witness for C11: `%1 = add i32 2, 3; %2 = mul i32 %1, 4; ret i32 %2`, laid out
definition first, which one call turns into `ret i32 20`. -/
theorem C11_one_pass_fixpoint_witness :
    (∀ I ∈ exRet20.flatten,
      ¬ (I.opcode ∈ [Opcode.Add, Opcode.Sub, Opcode.Mul, Opcode.SDiv, Opcode.Shl, Opcode.Or] ∧
        (∃ a, I.getOperand 0 = some (.ConstantInt a)) ∧
        (∃ b, I.getOperand 1 = some (.ConstantInt b)))) ∧
    myConstantPropagation exRet20 = .ok (false, exRet20) ∧
    ∃ g g1 g2 : Function,
      g.ids.Nodup ∧ g.defBeforeUse = false ∧
      myConstantPropagation g = .ok (true, g1) ∧
      myConstantPropagation g1 = .ok (true, g2) :=
  C11_one_pass_fixpoint exChain exRet20 true (by decide) (by decide) rfl

end llvm
